import Mathlib

/-!
# Chained hash table of `data-structure/hash/chhash.go`

A shallow embedding of the package `hash`: the `Hasher` interface, the `item` and
`ChHash` structs, `lookup`, `Get`, `Delete`, `Set`, `NewChHash` and `StringHash.hash`.

Conventions of the embedding.

* A Go run-time panic (division by zero in `%`, a slice index out of range, `make` with a
  negative length or with a length it cannot allocate) is the outer `none` of an `Option`;
  a result that is returned is `some`.
* Go's `int` is signed and `%` truncates towards zero: it is `Int.tmod`.
* A bucket `*list.List` holds `*item` pointers, one per node, each created by `new(item)`
  in `Set` and stored in exactly one node.  A `*item` is therefore identified by the place
  of its node: the bucket number and the position of the node in the chain (`itemPtr`);
  `nil` is the inner `none`.
* A value of type `interface{}` is a value of an arbitrary type `V`; the `nil` that `Get`
  returns when the key is absent is `none`.
-/

namespace chhash

/-! ## The collaborator package `list` -/

namespace list

/-- Modelled from the spec: the package `list` (type `list.List`, with `New`, `Append` and
`Each`) is imported by `chhash.go` but is not among the sources.  The spec describes it as
"an ordered sequence type supporting `Append(item)` and `Each(visitor)`".  `New` is the
empty sequence. -/
def New {α : Type} : List α := []

/-- Modelled from the spec: `Append(item)` of the missing package `list` puts the item at
the tail of the ordered sequence. -/
def Append {α : Type} (l : List α) (x : α) : List α := l ++ [x]

/-- Modelled from the spec: the traversal behind `Each` of the missing package `list`,
started at position `index`.  "The visitor receives each item and its index and returns a
boolean signaling stop iterating here".  The variables the Go closure captures and assigns
are the state `σ` that is threaded through the visits. -/
def eachFrom {α σ : Type} (visit : α → Nat → σ → σ × Bool) : List α → Nat → σ → σ
  | [], _, s => s
  | node :: rest, index, s =>
    match visit node index s with
    | (s1, true) => s1
    | (s1, false) => eachFrom visit rest (index + 1) s1

/-- Modelled from the spec: `Each(visitor)` of the missing package `list`: visit the items
in order, first position 0, until the visitor asks to stop. -/
def Each {α σ : Type} (l : List α) (visit : α → Nat → σ → σ × Bool) (s : σ) : σ :=
  eachFrom visit l 0 s

end list

/-! ## Go primitives -/

/-- Go's `a % b` on `int`: a run-time panic when `b = 0`, otherwise the remainder of the
division truncated towards zero (it has the sign of `a`). -/
def goRem (a b : Int) : Option Int :=
  if b = 0 then none else some (a.tmod b)

/-- Go's slice indexing `t[i]` with an `int` index: a run-time panic unless
`0 ≤ i < len(t)`. -/
def sliceAt {α : Type} (t : List α) (i : Int) : Option α :=
  if i < 0 then none else t[i.toNat]?

/-! ## Data model -/

/-- The interface `Hasher`: every key type has a method `hash() int`. -/
class Hasher (K : Type) where
  /-- The method `hash() int`. -/
  hash : K → Int

/-- The struct `item`: a key and a value. -/
structure item (K V : Type) where
  /-- Field `key Hasher`. -/
  key : K
  /-- Field `val interface{}`. -/
  val : V
deriving DecidableEq, Repr

/-- The struct `ChHash`: bucket count, bucket table, data length. -/
structure ChHash (K V : Type) where
  /-- Field `count int`: the number of buckets. -/
  count : Int
  /-- Field `table []*list.List`: the buckets. -/
  table : List (List (item K V))
  /-- Field `len int`: the data length. -/
  len : Int
deriving DecidableEq, Repr

/-- A non-nil `*item`: the item held by node `node` of bucket `bucket`. -/
structure itemPtr where
  /-- Index of the bucket in `table`. -/
  bucket : Nat
  /-- Position of the node in the chain. -/
  node : Nat
deriving DecidableEq, Repr

namespace ChHash

variable {K V : Type}

/-- Reading through a `*item`: the item the pointer refers to. -/
def load (h : ChHash K V) (p : itemPtr) : Option (item K V) :=
  match h.table[p.bucket]? with
  | none => none
  | some bucket => bucket[p.node]?

/-- The assignment `i.val = val` through a `*item`. -/
def storeVal (h : ChHash K V) (p : itemPtr) (val : V) : Option (ChHash K V) :=
  match h.table[p.bucket]? with
  | none => none
  | some bucket =>
    match bucket[p.node]? with
    | none => none
    | some it =>
      some { h with table := h.table.set p.bucket (bucket.set p.node { it with val := val }) }

/-- The method `lookup`: `i := key.hash() % h.count; bucket := h.table[i]`, then `Each` over
the bucket with a visitor that, at the first node whose key equals `key`, stores the item
in `data` and stops.  The type assertion `node.Data.(*item)` always succeeds, as `Set`
appends nothing but `*item`. -/
def lookup [Hasher K] [DecidableEq K] (h : ChHash K V) (key : K) : Option (Option itemPtr) :=
  match goRem (Hasher.hash key) h.count with
  | none => none
  | some i =>
    match sliceAt h.table i with
    | none => none
    | some bucket =>
      some (list.Each bucket
        (fun node index data =>
          if node.key = key then (some ⟨i.toNat, index⟩, true) else (data, false))
        none)

/-- The method `Get`: `(i.val, true)` when `lookup` finds an item, `(nil, false)` otherwise. -/
def Get [Hasher K] [DecidableEq K] (h : ChHash K V) (key : K) : Option (Option V × Bool) :=
  match h.lookup key with
  | none => none
  | some (some i) =>
    match h.load i with
    | none => none
    | some it => some (some it.val, true)
  | some none => some (none, false)

/-- The method `Delete`: its body is empty. -/
def Delete (h : ChHash K V) (_key : K) : ChHash K V := h

/-- The method `Set`: when `lookup` finds an item, assign its `val` and return; otherwise
`id := key.hash() % h.count; bucket := h.table[id]` and append a new item to the bucket. -/
def Set [Hasher K] [DecidableEq K] (h : ChHash K V) (key : K) (val : V) :
    Option (ChHash K V) :=
  match h.lookup key with
  | none => none
  | some (some i) => h.storeVal i val
  | some none =>
    match goRem (Hasher.hash key) h.count with
    | none => none
    | some id =>
      match sliceAt h.table id with
      | none => none
      | some bucket =>
        some { h with table := h.table.set id.toNat (list.Append bucket ⟨key, val⟩) }

end ChHash

/-- The function `NewChHash`, where `make` can allocate a slice of at most `lim` pointers
(`makeslice` panics with "len out of range" beyond `maxAlloc / 8`, that is `2 ^ 45` with
48 address bits, and memory may run out earlier): `make([]*list.List, size)` panics for a
negative size and for a size above `lim`; otherwise every one of the `size` slots receives
`list.New()`, and `len` keeps its zero value. -/
def NewChHashOn {K V : Type} (lim : Nat) (size : Int) : Option (ChHash K V) :=
  if size < 0 ∨ (lim : Int) < size then none
  else some { count := size, table := List.replicate size.toNat list.New, len := 0 }

/-- The function `NewChHash` where the allocation of the `size` buckets asked for succeeds:
`NewChHashOn` with room for exactly `size` pointers.  The properties of the maps that
`NewChHash` returns are stated on it. -/
def NewChHash {K V : Type} (size : Int) : Option (ChHash K V) :=
  NewChHashOn size.toNat size

/-! ## The key type `StringHash` -/

/-- The type `StringHash`: a Go string, that is a sequence of bytes. -/
structure StringHash where
  /-- The bytes of the string. -/
  bytes : List (Fin 256)
deriving DecidableEq, Repr

/-- One round of the loop of `StringHash.hash` on the two's complement bit pattern of `val`
for an `int` of `w` bits: `val = (val << 4) + int(s[i])`, then, when
`tmp := val & 0xf0000000` is not zero, `val = val ^ (tmp >> 24)` and `val = val ^ tmp`.
With 64 bits `tmp` is never negative, so its arithmetic shift is the shift of the bit
pattern (`hashRoundInt` below keeps the signed shift, and agrees); with 32 bits this is the
classic algorithm on unsigned words. -/
def hashRound (w : Nat) (val : Nat) (c : Fin 256) : Nat :=
  let val1 := ((val <<< 4) + c.val) % 2 ^ w
  let tmp := val1 &&& 0xf0000000
  if tmp ≠ 0 then (val1 ^^^ (tmp >>> 24)) ^^^ tmp else val1

/-- The signed integer of `w` bits with the given bit pattern. -/
def toSigned (w : Nat) (u : Nat) : Int :=
  if u < 2 ^ (w - 1) then (u : Int) else (u : Int) - 2 ^ w

/-- The bit pattern of `val` after the loop of `StringHash.hash` over all bytes of the
string, for an `int` of `w` bits. -/
def hashBits (w : Nat) (s : List (Fin 256)) : Nat :=
  s.foldl (hashRound w) 0

/-- The method `StringHash.hash`, with Go's `int` of 64 bits. -/
def StringHash.hash (s : StringHash) : Int :=
  toSigned 64 (hashBits 64 s.bytes)

instance : Hasher StringHash := ⟨StringHash.hash⟩

/-! ## Sequences of calls -/

/-- The calls `Set(k, v)` for the pairs of the list, in order, on the map `h`. -/
def SetAll {K V : Type} [Hasher K] [DecidableEq K] (h : ChHash K V) :
    List (K × V) → Option (ChHash K V)
  | [] => some h
  | (k, v) :: rest =>
    match h.Set k v with
    | none => none
    | some h1 => SetAll h1 rest

/-- A call of one of the two mutating methods. -/
inductive Call (K V : Type) where
  /-- The call `Set(key, val)`. -/
  | set (key : K) (val : V)
  /-- The call `Delete(key)`. -/
  | delete (key : K)
deriving DecidableEq, Repr

/-- The key a call is made on. -/
def Call.key {K V : Type} : Call K V → K
  | .set k _ => k
  | .delete k => k

/-- The calls of the list, in order, on the map `h`. -/
def runCalls {K V : Type} [Hasher K] [DecidableEq K] (h : ChHash K V) :
    List (Call K V) → Option (ChHash K V)
  | [] => some h
  | .set k v :: rest =>
    match h.Set k v with
    | none => none
    | some h1 => runCalls h1 rest
  | .delete k :: rest => runCalls (h.Delete k) rest

/-- The map built by `NewChHash(n)` followed by the `Set` calls of the list. -/
def build {K V : Type} [Hasher K] [DecidableEq K] (n : Int) (sets : List (K × V)) :
    Option (ChHash K V) :=
  match NewChHash n with
  | none => none
  | some h => SetAll h sets

/-- All entries of the table: the bucket chains one after the other. -/
def ChHash.entries {K V : Type} (h : ChHash K V) : List (item K V) :=
  h.table.flatten

/-! ## Pure descriptions of a chain, used to state and prove the properties -/

/-- Position of the first item of a chain whose key is `key`. -/
def firstPos {K V : Type} [DecidableEq K] (key : K) : List (item K V) → Option Nat
  | [] => none
  | it :: rest => if it.key = key then some 0 else (firstPos key rest).map (· + 1)

/-- The chain after `Set(key, val)`: the first item with that key gets the value, and when
there is none a new item goes to the tail. -/
def upsert {K V : Type} [DecidableEq K] (key : K) (val : V) : List (item K V) → List (item K V)
  | [] => [⟨key, val⟩]
  | it :: rest => if it.key = key then { it with val := val } :: rest
                  else it :: upsert key val rest

/-- The bucket index `key.hash() % n` computed by `lookup` and `Set`. -/
def bucketIndex {K : Type} [Hasher K] (n : Int) (key : K) : Int :=
  (Hasher.hash key).tmod n

/-- The chain that `lookup` scans for `key` (empty when there is no such bucket). -/
def ChHash.chainOf {K V : Type} [Hasher K] (h : ChHash K V) (key : K) : List (item K V) :=
  (h.table[(bucketIndex h.count key).toNat]?).getD []

/-- What `Get` returns for the outcome of a search. -/
def getResult {K V : Type} : Option (item K V) → Option V × Bool
  | some it => (some it.val, true)
  | none => (none, false)

/-- Shape of a table with `n` buckets: the bucket count is `n`, positive, and the table
has `n` buckets. -/
def ChHash.Shaped {K V : Type} (h : ChHash K V) (n : Int) : Prop :=
  0 < n ∧ h.count = n ∧ h.table.length = n.toNat

/-- The last-write-wins association described by the spec, for a sequence of writes
`(k_1, v_1), ..., (k_m, v_m)`: `(v_j, true)` for the largest index `j` with `k_j = k`, and
`(nil, false)` when there is no such index. -/
def lastWrite {K V : Type} [DecidableEq K] (sets : List (K × V)) (k : K) : Option V × Bool :=
  match sets.reverse.find? (fun p => decide (p.1 = k)) with
  | some p => (some p.2, true)
  | none => (none, false)

/-- The invariant stated by the spec, for a table of `n` buckets: every entry stored in
bucket `i` has a key whose hash code reduced modulo `n` is `i`, and no two entries of the
whole table have equal keys. -/
def ChHash.Inv {K V : Type} [Hasher K] (h : ChHash K V) (n : Int) : Prop :=
  (∀ (i : Nat) (chain : List (item K V)), h.table[i]? = some chain →
      ∀ it ∈ chain, bucketIndex n it.key = (i : Int) ∧ Hasher.hash it.key % n = (i : Int)) ∧
  (h.entries.map item.key).Nodup

/-- A `Hasher` implementation that the repository does not contain (its only one is
`StringHash`): a key whose hash code is the integer it wraps, of either sign, as
`func (k IntKey) hash() int { return int(k) }` would give.  It is an instance for
statements about every `Hasher` implementation or every hash function. -/
structure IntKey where
  /-- The integer. -/
  code : Int
deriving DecidableEq, Repr

instance : Hasher IntKey := ⟨IntKey.code⟩

/-- The invariant chain by chain: the keys of the chain of bucket `i` all have bucket
index `i`, and no key occurs twice in a chain. -/
def ChHash.ChainInv {K V : Type} [Hasher K] (h : ChHash K V) (n : Int) : Prop :=
  ∀ (i : Nat) (chain : List (item K V)), h.table[i]? = some chain →
    (∀ x ∈ chain.map item.key, bucketIndex n x = (i : Int)) ∧ (chain.map item.key).Nodup

/-- Fifty writes on fifty distinct integer keys, `-25, ..., 24`, the value of key `i - 25`
being `i`. -/
def fiftyWrites : List (IntKey × Nat) :=
  (List.range 50).map (fun (i : Nat) => (IntKey.mk ((i : Int) - 25), i))


/-- The invariant of the accumulator of `StringHash.hash`, on its bit pattern for an `int`
of 64 bits: it fits in 64 bits, bits 28 to 31 are zero, and every group of four bits above
bit 31 holds 0 or 1. -/
def accOk (val : Nat) : Prop :=
  val < 2 ^ 64 ∧ val % 2 ^ 32 < 2 ^ 28 ∧ ∀ i < 8, (val / 2 ^ 32 / 16 ^ i) % 16 ≤ 1

/-- Go's `x >> k` on a signed `int` of `w` bits, on bit patterns: the vacated positions
receive copies of the sign bit. -/
def shrSigned (w u k : Nat) : Nat :=
  if u < 2 ^ (w - 1) then u >>> k else (u >>> k) + (2 ^ w - 2 ^ (w - k))

/-- One round of the loop of `StringHash.hash` for a signed `int` of `w` bits, with the
signed shift `tmp >> 24`. -/
def hashRoundInt (w : Nat) (val : Nat) (c : Fin 256) : Nat :=
  let val1 := ((val <<< 4) + c.val) % 2 ^ w
  let tmp := val1 &&& 0xf0000000
  if tmp ≠ 0 then (val1 ^^^ shrSigned w tmp 24) ^^^ tmp else val1

/-- The bit pattern after the loop over all bytes, with the signed shift. -/
def hashBitsInt (w : Nat) (s : List (Fin 256)) : Nat :=
  s.foldl (hashRoundInt w) 0

/-- The seven bytes F0 F0 F0 F0 F0 FF 10. -/
def sevenBytes : List (Fin 256) := [0xF0, 0xF0, 0xF0, 0xF0, 0xF0, 0xFF, 0x10]

/-! ## Lemmas on chains, buckets and runs -/

section Chain

variable {K V : Type} [DecidableEq K]

theorem eachFrom_visit (b : Nat) (key : K) (chain : List (item K V)) (start : Nat) :
    list.eachFrom (fun (node : item K V) (index : Nat) (data : Option itemPtr) =>
        if node.key = key then (some (itemPtr.mk b index), true) else (data, false))
      chain start none
    = (firstPos key chain).map (fun j => itemPtr.mk b (start + j)) := by
  induction chain generalizing start with
  | nil => rfl
  | cons it rest ih =>
    by_cases hk : it.key = key
    · simp [list.eachFrom, firstPos, hk]
    · simp only [list.eachFrom, firstPos, hk, if_false]
      rw [ih (start + 1)]
      cases firstPos key rest with
      | none => rfl
      | some j => simp [Nat.add_assoc, Nat.add_comm 1 j]

theorem firstPos_eq_none {key : K} {chain : List (item K V)} :
    firstPos key chain = none ↔ ∀ it ∈ chain, it.key ≠ key := by
  induction chain with
  | nil => simp [firstPos]
  | cons it rest ih =>
    by_cases hk : it.key = key
    · simp [firstPos, hk]
    · simp [firstPos, hk, ih]

theorem firstPos_some {key : K} {chain : List (item K V)} {j : Nat}
    (h : firstPos key chain = some j) :
    chain[j]? = chain.find? (fun it => decide (it.key = key)) ∧
      ∃ it, chain[j]? = some it ∧ it.key = key := by
  induction chain generalizing j with
  | nil => simp [firstPos] at h
  | cons it rest ih =>
    by_cases hk : it.key = key
    · simp [firstPos, hk] at h
      subst h
      simp [hk]
    · simp only [firstPos, hk, if_false, Option.map_eq_some'] at h
      obtain ⟨j0, hj0, rfl⟩ := h
      have := ih hj0
      simpa [hk] using this

theorem find_eq_none_of_firstPos {key : K} {chain : List (item K V)}
    (h : firstPos key chain = none) :
    chain.find? (fun it => decide (it.key = key)) = none := by
  rw [List.find?_eq_none]
  intro it hit
  simpa using firstPos_eq_none.1 h it hit

theorem upsert_of_firstPos_none {key : K} {val : V} {chain : List (item K V)}
    (h : firstPos key chain = none) : upsert key val chain = chain ++ [⟨key, val⟩] := by
  induction chain with
  | nil => rfl
  | cons it rest ih =>
    by_cases hk : it.key = key
    · simp [firstPos, hk] at h
    · simp only [firstPos, hk, if_false, Option.map_eq_none'] at h
      simp [upsert, hk, ih h]

theorem upsert_of_firstPos_some {key : K} {val : V} {chain : List (item K V)} {j : Nat}
    {it : item K V} (h : firstPos key chain = some j) (hit : chain[j]? = some it) :
    upsert key val chain = chain.set j { it with val := val } := by
  induction chain generalizing j with
  | nil => simp [firstPos] at h
  | cons x rest ih =>
    by_cases hk : x.key = key
    · simp [firstPos, hk] at h
      subst h
      simp at hit
      subst hit
      simp [upsert, hk]
    · simp only [firstPos, hk, if_false, Option.map_eq_some'] at h
      obtain ⟨j0, hj0, rfl⟩ := h
      simp at hit
      simp [upsert, hk, ih hj0 hit]

theorem find_upsert_same (key : K) (val : V) (chain : List (item K V)) :
    (upsert key val chain).find? (fun it => decide (it.key = key)) = some ⟨key, val⟩ := by
  induction chain with
  | nil => simp [upsert]
  | cons x rest ih =>
    by_cases hk : x.key = key
    · simp [upsert, hk]
    · simp [upsert, hk, ih]

theorem find_upsert_other {key other : K} (hne : other ≠ key) (val : V)
    (chain : List (item K V)) :
    (upsert key val chain).find? (fun it => decide (it.key = other))
      = chain.find? (fun it => decide (it.key = other)) := by
  induction chain with
  | nil => simp [upsert, Ne.symm hne]
  | cons x rest ih =>
    by_cases hk : x.key = key
    · have : x.key ≠ other := by rw [hk]; exact Ne.symm hne
      simp [upsert, hk, List.find?_cons, Ne.symm hne]
    · by_cases ho : x.key = other
      · rw [upsert, if_neg hk]
        simp [List.find?_cons, ho]
      · simp [upsert, hk, List.find?_cons, ho, ih]

end Chain


section Index

variable {K V : Type} [Hasher K]

theorem bucketIndex_lt {n : Int} (hn : 0 < n) (key : K) : bucketIndex n key < n :=
  Int.tmod_lt_of_pos _ hn

theorem bucketIndex_nonneg_of_hash {n : Int} {key : K} (hk : 0 ≤ Hasher.hash key) :
    0 ≤ bucketIndex n key :=
  Int.tmod_nonneg _ hk

theorem bucketIndex_one (key : K) : bucketIndex 1 key = 0 :=
  Int.tmod_one _

theorem ChHash.Shaped.bucket_lt {h : ChHash K V} {n : Int} (hs : h.Shaped n) {key : K}
    (hk : 0 ≤ bucketIndex n key) : (bucketIndex n key).toNat < h.table.length := by
  obtain ⟨hn, _, hl⟩ := hs
  have := bucketIndex_lt hn key
  rw [hl]
  omega

theorem ChHash.Shaped.goRem_eq {h : ChHash K V} {n : Int} (hs : h.Shaped n) (key : K) :
    goRem (Hasher.hash key) h.count = some (bucketIndex n key) := by
  obtain ⟨hn, hc, _⟩ := hs
  have : n ≠ 0 := by omega
  simp [goRem, hc, this, bucketIndex]

theorem ChHash.Shaped.sliceAt_eq {h : ChHash K V} {n : Int} (hs : h.Shaped n) {key : K}
    (hk : 0 ≤ bucketIndex n key) :
    sliceAt h.table (bucketIndex n key) = some (h.chainOf key) := by
  have hlt := hs.bucket_lt hk
  have hc : h.count = n := hs.2.1
  have : ¬ bucketIndex n key < 0 := by omega
  simp [sliceAt, this, ChHash.chainOf, hc, List.getElem?_eq_getElem hlt]

theorem ChHash.Shaped.table_chainOf {h : ChHash K V} {n : Int} (hs : h.Shaped n) {key : K}
    (hk : 0 ≤ bucketIndex n key) :
    h.table[(bucketIndex n key).toNat]? = some (h.chainOf key) := by
  have hlt := hs.bucket_lt hk
  have hc : h.count = n := hs.2.1
  simp [ChHash.chainOf, hc, List.getElem?_eq_getElem hlt]

end Index

section Bridge

variable {K V : Type} [Hasher K] [DecidableEq K]

theorem ChHash.Shaped.lookup_eq {h : ChHash K V} {n : Int} (hs : h.Shaped n) {key : K}
    (hk : 0 ≤ bucketIndex n key) :
    h.lookup key = some ((firstPos key (h.chainOf key)).map
      (fun j => itemPtr.mk (bucketIndex n key).toNat j)) := by
  unfold ChHash.lookup
  rw [hs.goRem_eq key]
  simp only [hs.sliceAt_eq hk, list.Each, eachFrom_visit, Nat.zero_add]

theorem ChHash.Shaped.Get_eq {h : ChHash K V} {n : Int} (hs : h.Shaped n) {key : K}
    (hk : 0 ≤ bucketIndex n key) :
    h.Get key = some (getResult ((h.chainOf key).find? (fun it => decide (it.key = key)))) := by
  unfold ChHash.Get
  rw [hs.lookup_eq hk]
  cases hp : firstPos key (h.chainOf key) with
  | none => simp [find_eq_none_of_firstPos hp, getResult]
  | some j =>
    obtain ⟨hfind, it, hit, _⟩ := firstPos_some hp
    simp only [Option.map_some', ChHash.load, hs.table_chainOf hk]
    rw [← hfind, hit]
    rfl

theorem ChHash.Shaped.Set_eq {h : ChHash K V} {n : Int} (hs : h.Shaped n) {key : K}
    (hk : 0 ≤ bucketIndex n key) (val : V) :
    h.Set key val = some (ChHash.mk h.count
      (h.table.set (bucketIndex n key).toNat (upsert key val (h.chainOf key))) h.len) := by
  unfold ChHash.Set
  rw [hs.lookup_eq hk]
  cases hp : firstPos key (h.chainOf key) with
  | none =>
    simp only [Option.map_none', hs.goRem_eq key, hs.sliceAt_eq hk, list.Append,
      upsert_of_firstPos_none hp]
  | some j =>
    obtain ⟨_, it, hit, _⟩ := firstPos_some hp
    simp only [Option.map_some', ChHash.storeVal, hs.table_chainOf hk, hit,
      upsert_of_firstPos_some hp hit]

theorem ChHash.Shaped.Set_shaped {h h1 : ChHash K V} {n : Int} (hs : h.Shaped n) {key : K}
    (hk : 0 ≤ bucketIndex n key) {val : V} (hset : h.Set key val = some h1) :
    h1.Shaped n := by
  rw [hs.Set_eq hk val] at hset
  cases hset
  exact ⟨hs.1, hs.2.1, by simpa using hs.2.2⟩

theorem ChHash.Shaped.chainOf_Set {h h1 : ChHash K V} {n : Int} (hs : h.Shaped n) {key : K}
    (hk : 0 ≤ bucketIndex n key) {val : V} (hset : h.Set key val = some h1) (other : K) :
    h1.chainOf other =
      if (bucketIndex n other).toNat = (bucketIndex n key).toNat
      then upsert key val (h.chainOf key) else h.chainOf other := by
  have hlt := hs.bucket_lt hk
  have hc : h.count = n := hs.2.1
  rw [hs.Set_eq hk val] at hset
  cases hset
  by_cases hb : (bucketIndex n other).toNat = (bucketIndex n key).toNat
  · simp [ChHash.chainOf, hc, hb, List.getElem?_set, hlt]
  · simp [ChHash.chainOf, hc, hb, List.getElem?_set, Ne.symm hb]

theorem ChHash.Shaped.Get_Set_same {h h1 : ChHash K V} {n : Int} (hs : h.Shaped n) {key : K}
    (hk : 0 ≤ bucketIndex n key) {val : V} (hset : h.Set key val = some h1) :
    h1.Get key = some (some val, true) := by
  rw [(hs.Set_shaped hk hset).Get_eq hk, hs.chainOf_Set hk hset key]
  simp [find_upsert_same, getResult]

theorem ChHash.Shaped.Get_Set_other {h h1 : ChHash K V} {n : Int} (hs : h.Shaped n) {key : K}
    (hk : 0 ≤ bucketIndex n key) {val : V} (hset : h.Set key val = some h1) {other : K}
    (ho : 0 ≤ bucketIndex n other) (hne : other ≠ key) :
    h1.Get other = h.Get other := by
  rw [(hs.Set_shaped hk hset).Get_eq ho, hs.Get_eq ho, hs.chainOf_Set hk hset other]
  by_cases hb : (bucketIndex n other).toNat = (bucketIndex n key).toNat
  · have hch : h.chainOf other = h.chainOf key := by
      simp [ChHash.chainOf, hs.2.1, hb]
    simp [hb, find_upsert_other hne, hch]
  · simp [hb]

end Bridge

section Construction

theorem NewChHash_eq {K V : Type} (n : Int) :
    (NewChHash n : Option (ChHash K V)) =
      if n < 0 then none else some (ChHash.mk n (List.replicate n.toNat []) 0) := by
  unfold NewChHash NewChHashOn
  by_cases hn : n < 0
  · simp [hn]
  · have h2 : ¬ ((n.toNat : Int) < n) := by omega
    simp [hn, h2, list.New]

theorem NewChHash_shaped {K V : Type} {n : Int} (hn : 0 < n) :
    ∃ h : ChHash K V, NewChHash n = some h ∧ h.Shaped n ∧ h.len = 0 ∧
      h.table = List.replicate n.toNat [] := by
  have : ¬ n < 0 := by omega
  refine ⟨ChHash.mk n (List.replicate n.toNat []) 0, ?_, ⟨hn, rfl, by simp⟩, rfl, rfl⟩
  simp [NewChHash_eq, this]

end Construction


section Sequences

variable {K V : Type} [Hasher K] [DecidableEq K]

theorem SetAll_shaped {n : Int} (sets : List (K × V)) {h : ChHash K V} (hs : h.Shaped n)
    (hv : ∀ p ∈ sets, 0 ≤ bucketIndex n p.1) :
    ∃ h1, SetAll h sets = some h1 ∧ h1.Shaped n ∧ h1.len = h.len := by
  induction sets generalizing h with
  | nil => exact ⟨h, rfl, hs, rfl⟩
  | cons p rest ih =>
    obtain ⟨k, v⟩ := p
    have hk : 0 ≤ bucketIndex n k := hv (k, v) (List.mem_cons_self _ _)
    have hset := hs.Set_eq hk v
    obtain ⟨h2, h2eq, h2s, h2l⟩ := ih (hs.Set_shaped hk hset)
      (fun q hq => hv q (List.mem_cons_of_mem _ hq))
    exact ⟨h2, by simp only [SetAll, hset, h2eq], h2s, h2l⟩

end Sequences

section LastWrite

variable {K V : Type} [DecidableEq K]

theorem lastWrite_nil (k : K) : lastWrite ([] : List (K × V)) k = (none, false) := rfl

theorem lastWrite_cons (k0 : K) (v0 : V) (rest : List (K × V)) (k : K) :
    lastWrite ((k0, v0) :: rest) k =
      if (lastWrite rest k).2 = true then lastWrite rest k
      else if k0 = k then (some v0, true) else (none, false) := by
  unfold lastWrite
  rw [List.reverse_cons, List.find?_append]
  cases hf : rest.reverse.find? (fun p => decide (p.1 = k)) with
  | some p => simp
  | none =>
    by_cases hk : k0 = k
    · simp [hk]
    · simp [hk]

theorem lastWrite_absent {sets : List (K × V)} {k : K} :
    (lastWrite sets k).2 = false ↔ k ∉ sets.map Prod.fst := by
  unfold lastWrite
  cases hf : sets.reverse.find? (fun p => decide (p.1 = k)) with
  | some p =>
    have hmem := List.mem_of_find?_eq_some hf
    have hp := List.find?_some hf
    simp only [decide_eq_true_eq] at hp
    simp only [Bool.true_eq_false, false_iff, not_not, List.mem_map]
    exact ⟨p, List.mem_reverse.1 hmem, hp⟩
  | none =>
    rw [List.find?_eq_none] at hf
    simp only [true_iff, List.mem_map, not_exists, not_and]
    intro p hp hpk
    have := hf p (List.mem_reverse.2 hp)
    simp [hpk] at this

end LastWrite

section Runs

variable {K V : Type} [Hasher K] [DecidableEq K]

theorem Get_SetAll {n : Int} (sets : List (K × V)) {h h1 : ChHash K V} (hs : h.Shaped n)
    (hv : ∀ p ∈ sets, 0 ≤ bucketIndex n p.1) (hrun : SetAll h sets = some h1)
    {k : K} (hk : 0 ≤ bucketIndex n k) :
    h1.Get k = if (lastWrite sets k).2 = true then some (lastWrite sets k) else h.Get k := by
  induction sets generalizing h with
  | nil =>
    cases hrun
    simp [lastWrite_nil]
  | cons p rest ih =>
    obtain ⟨k0, v0⟩ := p
    have hk0 : 0 ≤ bucketIndex n k0 := hv (k0, v0) (List.mem_cons_self _ _)
    have hset := hs.Set_eq hk0 v0
    simp only [SetAll, hset] at hrun
    rw [ih (hs.Set_shaped hk0 hset) (fun q hq => hv q (List.mem_cons_of_mem _ hq)) hrun,
      lastWrite_cons]
    by_cases hl : (lastWrite rest k).2 = true
    · simp [hl]
    · by_cases hkk : k0 = k
      · subst hkk
        simp [hl, hs.Get_Set_same hk0 hset]
      · simp only [hl, hkk, if_false]
        rw [hs.Get_Set_other hk0 hset hk (Ne.symm hkk)]
        simp

theorem Get_New {n : Int} (hn : 0 < n) {h : ChHash K V} (hnew : NewChHash n = some h)
    {k : K} (hk : 0 ≤ bucketIndex n k) : h.Get k = some (none, false) := by
  obtain ⟨h0, h0eq, h0s, _, h0t⟩ := NewChHash_shaped (K := K) (V := V) hn
  rw [hnew] at h0eq
  cases h0eq
  rw [h0s.Get_eq hk]
  have hlt := h0s.bucket_lt hk
  have : h.chainOf k = [] := by
    have h1 := h0s.table_chainOf hk
    rw [h0t, List.getElem?_eq_getElem (by simpa [h0t] using hlt)] at h1
    simpa using h1.symm
  simp [this, getResult]

theorem build_spec {n : Int} (hn : 0 < n) (sets : List (K × V))
    (hv : ∀ p ∈ sets, 0 ≤ bucketIndex n p.1) :
    ∃ m, build n sets = some m ∧ m.Shaped n ∧ m.len = 0 ∧
      ∀ k, 0 ≤ bucketIndex n k → m.Get k = some (lastWrite sets k) := by
  obtain ⟨h0, h0eq, h0s, h0l, _⟩ := NewChHash_shaped (K := K) (V := V) hn
  obtain ⟨m, hm, hms, hml⟩ := SetAll_shaped sets h0s hv
  refine ⟨m, by simp only [build, h0eq, hm], hms, by rw [hml, h0l], ?_⟩
  intro k hk
  rw [Get_SetAll sets h0s hv hm hk, Get_New hn h0eq hk]
  by_cases hl : (lastWrite sets k).2 = true
  · simp [hl]
  · have h2 : (lastWrite sets k).2 = false := by simpa using hl
    have : lastWrite sets k = (none, false) := by
      unfold lastWrite at h2 ⊢
      cases hf : sets.reverse.find? (fun p => decide (p.1 = k)) with
      | some p => simp [hf] at h2
      | none => rfl
    simp [this]

end Runs


section Invariant

variable {K V : Type} [DecidableEq K]

theorem upsert_keys (key : K) (val : V) (chain : List (item K V)) :
    (upsert key val chain).map item.key =
      if key ∈ chain.map item.key then chain.map item.key
      else chain.map item.key ++ [key] := by
  induction chain with
  | nil => simp [upsert]
  | cons x rest ih =>
    by_cases hk : x.key = key
    · simp [upsert, hk]
    · rw [upsert, if_neg hk, List.map_cons, ih]
      by_cases hm : key ∈ rest.map item.key
      · simp [hm]
      · have : key ∉ (x :: rest).map item.key := by
          rw [List.map_cons, List.mem_cons]
          rintro (h | h)
          · exact hk h.symm
          · exact hm h
        rw [if_neg hm, if_neg this]
        rfl

theorem filter_key_of_nodup {l : List (item K V)} (hnd : (l.map item.key).Nodup)
    {it : item K V} (hit : it ∈ l) :
    l.filter (fun x => decide (x.key = it.key)) = [it] := by
  induction l with
  | nil => cases hit
  | cons x rest ih =>
    rw [List.map_cons, List.nodup_cons] at hnd
    have hrest : ∀ y ∈ rest, y.key ≠ x.key := by
      intro y hy hyx
      exact hnd.1 (hyx ▸ List.mem_map_of_mem item.key hy)
    rcases List.mem_cons.1 hit with rfl | hmem
    · have : rest.filter (fun x => decide (x.key = it.key)) = [] := by
        rw [List.filter_eq_nil_iff]
        intro y hy
        simpa using hrest y hy
      simp [List.filter_cons, this]
    · have hx : ¬ x.key = it.key := fun h => hrest it hmem h.symm
      simp [List.filter_cons, hx, ih hnd.2 hmem]

end Invariant

section InvariantHash

variable {K V : Type} [Hasher K]

theorem emod_of_bucketIndex {n : Int} (hn : 0 < n) {key : K} {i : Nat}
    (h : bucketIndex n key = (i : Int)) : Hasher.hash key % n = (i : Int) := by
  have hlt : bucketIndex n key < n := bucketIndex_lt hn key
  have hdec := Int.tmod_add_tdiv (Hasher.hash key) n
  unfold bucketIndex at h hlt
  rw [h] at hdec hlt
  rw [← hdec, Int.add_mul_emod_self_left]
  exact Int.emod_eq_of_lt (Int.ofNat_nonneg i) hlt

theorem ChHash.ChainInv.nodup_entries {h : ChHash K V} {n : Int} (hc : h.ChainInv n) :
    (h.entries.map item.key).Nodup := by
  unfold ChHash.entries
  rw [List.map_flatten, List.nodup_flatten]
  constructor
  · intro l hl
    obtain ⟨chain, hchain, rfl⟩ := List.mem_map.1 hl
    obtain ⟨i, hi⟩ := List.mem_iff_getElem?.1 hchain
    exact (hc i chain hi).2
  · rw [List.pairwise_iff_getElem]
    intro i j hi hj hij
    rw [List.length_map] at hi hj
    simp only [List.getElem_map]
    intro x hxi hxj
    have h1 := (hc i _ (List.getElem?_eq_getElem hi)).1 x hxi
    have h2 := (hc j _ (List.getElem?_eq_getElem hj)).1 x hxj
    rw [h1] at h2
    have : i = j := by exact_mod_cast h2
    omega

theorem ChHash.ChainInv.inv {h : ChHash K V} {n : Int} (hn : 0 < n) (hc : h.ChainInv n) :
    h.Inv n := by
  refine ⟨?_, hc.nodup_entries⟩
  intro i chain hi it hit
  have := (hc i chain hi).1 it.key (List.mem_map_of_mem item.key hit)
  exact ⟨this, emod_of_bucketIndex hn this⟩

theorem ChHash.Inv.chainInv {h : ChHash K V} {n : Int} (hi : h.Inv n) : h.ChainInv n := by
  intro i chain hget
  constructor
  · intro x hx
    obtain ⟨it, hit, rfl⟩ := List.mem_map.1 hx
    exact (hi.1 i chain hget it hit).1
  · have hnd := hi.2
    unfold ChHash.entries at hnd
    rw [List.map_flatten, List.nodup_flatten] at hnd
    exact hnd.1 _ (List.mem_map_of_mem _ (List.mem_iff_getElem?.2 ⟨i, hget⟩))

theorem NewChHash_chainInv {n : Int} (hn : 0 < n) {h : ChHash K V}
    (hnew : NewChHash n = some h) : h.ChainInv n := by
  obtain ⟨h0, h0eq, _, _, h0t⟩ := NewChHash_shaped (K := K) (V := V) hn
  rw [hnew] at h0eq
  cases h0eq
  intro i chain hget
  rw [h0t, List.getElem?_replicate] at hget
  split at hget
  · cases hget
    simp
  · cases hget

end InvariantHash

section InvariantSet

variable {K V : Type} [Hasher K] [DecidableEq K]

theorem ChHash.ChainInv.Set {h h1 : ChHash K V} {n : Int} (hc : h.ChainInv n)
    (hs : h.Shaped n) {key : K} (hk : 0 ≤ bucketIndex n key) {val : V}
    (hset : h.Set key val = some h1) : h1.ChainInv n := by
  have hlt := hs.bucket_lt hk
  have hold := hc _ _ (hs.table_chainOf hk)
  rw [hs.Set_eq hk val] at hset
  cases hset
  intro i chain hget
  simp only [List.getElem?_set] at hget
  by_cases hb : (bucketIndex n key).toNat = i
  · rw [if_pos hb, if_pos hlt] at hget
    cases hget
    have hidx : bucketIndex n key = (i : Int) := by rw [← hb]; omega
    rw [upsert_keys]
    by_cases hm : key ∈ (h.chainOf key).map item.key
    · rw [if_pos hm, ← hb]
      exact hold
    · rw [if_neg hm]
      constructor
      · intro x hx
        rcases List.mem_append.1 hx with hx | hx
        · rw [← hb]; exact hold.1 x hx
        · rw [List.mem_singleton.1 hx]; exact hidx
      · exact List.Nodup.append hold.2 (List.nodup_singleton _)
          (by simpa [List.disjoint_singleton] using hm)
  · rw [if_neg hb] at hget
    exact hc i chain hget

end InvariantSet


section CallRuns

variable {K V : Type} [Hasher K] [DecidableEq K]

theorem runCalls_chainInv {n : Int} (calls : List (Call K V)) {h : ChHash K V}
    (hs : h.Shaped n) (hc : h.ChainInv n) (hv : ∀ c ∈ calls, 0 ≤ bucketIndex n c.key) :
    ∃ m, runCalls h calls = some m ∧ m.Shaped n ∧ m.ChainInv n := by
  induction calls generalizing h with
  | nil => exact ⟨h, rfl, hs, hc⟩
  | cons c rest ih =>
    have hrest : ∀ c ∈ rest, 0 ≤ bucketIndex n c.key :=
      fun q hq => hv q (List.mem_cons_of_mem _ hq)
    cases c with
    | set k v =>
      have hk : 0 ≤ bucketIndex n k := hv (Call.set k v) (List.mem_cons_self _ _)
      have hset := hs.Set_eq hk v
      obtain ⟨m, hm, hms, hmc⟩ := ih (hs.Set_shaped hk hset) (hc.Set hs hk hset) hrest
      exact ⟨m, by simp only [runCalls, hset, hm], hms, hmc⟩
    | delete k =>
      obtain ⟨m, hm, hms, hmc⟩ := ih (h := h.Delete k) hs hc hrest
      exact ⟨m, by simp only [runCalls, hm], hms, hmc⟩

theorem build_chainInv {n : Int} (hn : 0 < n) (sets : List (K × V))
    (hv : ∀ p ∈ sets, 0 ≤ bucketIndex n p.1) {m : ChHash K V}
    (hm : build n sets = some m) : m.ChainInv n := by
  obtain ⟨h0, h0eq, h0s, -, -⟩ := NewChHash_shaped (K := K) (V := V) hn
  have h0c := NewChHash_chainInv hn h0eq
  simp only [build, h0eq] at hm
  clear h0eq
  induction sets generalizing h0 with
  | nil =>
    cases hm
    exact h0c
  | cons p rest ih =>
    obtain ⟨k, v⟩ := p
    have hk : 0 ≤ bucketIndex n k := hv (k, v) (List.mem_cons_self _ _)
    have hset := h0s.Set_eq hk v
    simp only [SetAll, hset] at hm
    exact ih (fun q hq => hv q (List.mem_cons_of_mem _ hq)) _
      (h0s.Set_shaped hk hset) (h0c.Set h0s hk hset) hm

theorem ChHash.Shaped.mem_entries_of_Set {h h1 : ChHash K V} {n : Int} (hs : h.Shaped n)
    {key : K} (hk : 0 ≤ bucketIndex n key) {val : V} (hset : h.Set key val = some h1) :
    (⟨key, val⟩ : item K V) ∈ h1.entries := by
  have hs1 := hs.Set_shaped hk hset
  have hfind : (h1.chainOf key).find? (fun it => decide (it.key = key)) = some ⟨key, val⟩ := by
    rw [hs.chainOf_Set hk hset key]
    simp [find_upsert_same]
  have hmem := List.mem_of_find?_eq_some hfind
  unfold ChHash.entries
  rw [List.mem_flatten]
  exact ⟨_, List.mem_iff_getElem?.2 ⟨_, hs1.table_chainOf hk⟩, hmem⟩

end CallRuns


/-! ## Properties of the map -/

/-- C1: on every map built by `NewChHash(n)`, `n > 0`, and any sequence of `Set` calls, for
every key `k` with a non-negative hash code and every value `v`, the call `Set(k, v)`
returns and the following `Get(k)` returns `(v, true)`, whether or not `k` was present
before. -/
theorem C1_set_then_get {K V : Type} [Hasher K] [DecidableEq K] (n : Int) (hn : 0 < n)
    (sets : List (K × V))
    (hsets : ∀ p ∈ sets, 0 ≤ Hasher.hash p.1) (k : K) (hk : 0 ≤ Hasher.hash k) (v : V) :
    ∃ m m1, build n sets = some m ∧ m.Set k v = some m1 ∧
      m1.Get k = some (some v, true) := by
  obtain ⟨m, hm, hms, -, -⟩ := build_spec hn sets
    (fun p hp => bucketIndex_nonneg_of_hash (hsets p hp))
  have hkb : 0 ≤ bucketIndex n k := bucketIndex_nonneg_of_hash hk
  exact ⟨m, _, hm, hms.Set_eq hkb v, hms.Get_Set_same hkb (hms.Set_eq hkb v)⟩

/-- C2: on every map built by `NewChHash(n)`, `n > 0`, and `Set` calls, for distinct keys
`k1`, `k2` with non-negative hash codes, after `Set(k1, v1)` and then `Set(k2, v2)` the
call `Get(k1)` returns `(v1, true)` and `Get(k2)` returns `(v2, true)`; nothing is assumed
about the buckets of the two keys, so they may collide. -/
theorem C2_distinct_keys {K V : Type} [Hasher K] [DecidableEq K] (n : Int) (hn : 0 < n)
    (sets : List (K × V))
    (hsets : ∀ p ∈ sets, 0 ≤ Hasher.hash p.1) (k1 k2 : K) (hne : k1 ≠ k2)
    (hk1 : 0 ≤ Hasher.hash k1) (hk2 : 0 ≤ Hasher.hash k2) (v1 v2 : V) :
    ∃ m m1 m2, build n sets = some m ∧ m.Set k1 v1 = some m1 ∧ m1.Set k2 v2 = some m2 ∧
      m2.Get k1 = some (some v1, true) ∧ m2.Get k2 = some (some v2, true) := by
  obtain ⟨m, hm, hms, -, -⟩ := build_spec hn sets
    (fun p hp => bucketIndex_nonneg_of_hash (hsets p hp))
  have hb1 : 0 ≤ bucketIndex n k1 := bucketIndex_nonneg_of_hash hk1
  have hb2 : 0 ≤ bucketIndex n k2 := bucketIndex_nonneg_of_hash hk2
  have hset1 := hms.Set_eq hb1 v1
  have hs1 := hms.Set_shaped hb1 hset1
  have hset2 := hs1.Set_eq hb2 v2
  refine ⟨m, _, _, hm, hset1, hset2, ?_, hs1.Get_Set_same hb2 hset2⟩
  rw [hs1.Get_Set_other hb2 hset2 hb1 hne]
  exact hms.Get_Set_same hb1 hset1

/-- C3: on every map built by `NewChHash(n)`, `n > 0`, and `Set` calls, for every key `k`
with a non-negative hash code, after `Set(k, v1)` and then `Set(k, v2)` the entries of the
whole table whose key is `k` are exactly one entry, and its value is `v2`. -/
theorem C3_update_not_append {K V : Type} [Hasher K] [DecidableEq K] (n : Int) (hn : 0 < n)
    (sets : List (K × V))
    (hsets : ∀ p ∈ sets, 0 ≤ Hasher.hash p.1) (k : K) (hk : 0 ≤ Hasher.hash k) (v1 v2 : V) :
    ∃ m m1 m2, build n sets = some m ∧ m.Set k v1 = some m1 ∧ m1.Set k v2 = some m2 ∧
      m2.entries.filter (fun it => decide (it.key = k)) = [⟨k, v2⟩] := by
  have hv : ∀ p ∈ sets, 0 ≤ bucketIndex n p.1 :=
    fun p hp => bucketIndex_nonneg_of_hash (hsets p hp)
  obtain ⟨m, hm, hms, -, -⟩ := build_spec hn sets hv
  have hmc := build_chainInv hn sets hv hm
  have hb : 0 ≤ bucketIndex n k := bucketIndex_nonneg_of_hash hk
  have hset1 := hms.Set_eq hb v1
  have hs1 := hms.Set_shaped hb hset1
  have hc1 := hmc.Set hms hb hset1
  have hset2 := hs1.Set_eq hb v2
  have hc2 := hc1.Set hs1 hb hset2
  refine ⟨m, _, _, hm, hset1, hset2, ?_⟩
  exact filter_key_of_nodup hc2.nodup_entries (hs1.mem_entries_of_Set hb hset2)

/-- C4: on every map built by `NewChHash(n)`, `n > 0`, and a sequence of `Set` calls, for
every key `k` with a non-negative hash code that differs from every key set, `Get(k)`
returns `(nil, false)`; with no `Set` call at all this is the freshly built map. -/
theorem C4_get_absent {K V : Type} [Hasher K] [DecidableEq K] (n : Int) (hn : 0 < n)
    (sets : List (K × V))
    (hsets : ∀ p ∈ sets, 0 ≤ Hasher.hash p.1) (k : K) (hk : 0 ≤ Hasher.hash k)
    (habs : ∀ p ∈ sets, p.1 ≠ k) :
    (∃ m, build n sets = some m ∧ m.Get k = some (none, false)) ∧
    (∃ m0 : ChHash K V, NewChHash n = some m0 ∧ m0.Get k = some (none, false)) := by
  obtain ⟨m, hm, -, -, hget⟩ := build_spec hn sets
    (fun p hp => bucketIndex_nonneg_of_hash (hsets p hp))
  have hkb : 0 ≤ bucketIndex n k := bucketIndex_nonneg_of_hash hk
  constructor
  · refine ⟨m, hm, ?_⟩
    rw [hget k hkb]
    have hnot : k ∉ sets.map Prod.fst := by
      intro hmem
      obtain ⟨p, hp, hpk⟩ := List.mem_map.1 hmem
      exact habs p hp hpk
    have h2 := lastWrite_absent.2 hnot
    unfold lastWrite at h2 ⊢
    cases hf : sets.reverse.find? (fun p => decide (p.1 = k)) with
    | some p => simp [hf] at h2
    | none => rfl
  · obtain ⟨m0, hm0, -, -, -⟩ := NewChHash_shaped (K := K) (V := V) hn
    exact ⟨m0, hm0, Get_New hn hm0 hkb⟩

/-- C5: the map refines the last-write-wins association `lastWrite`: for `n > 0` and `Set`
calls on keys with non-negative hash codes, applied to `NewChHash(n)`, every call returns
and `Get(k)` returns what `lastWrite` gives for the sequence of writes; for `n = 1` the same
holds for every key type and every hash function, negative hash codes included. -/
theorem C5_last_write_wins :
    (∀ (K V : Type) [Hasher K] [DecidableEq K] (n : Int) (sets : List (K × V)) (k : K),
      0 < n → (∀ p ∈ sets, 0 ≤ Hasher.hash p.1) → 0 ≤ Hasher.hash k →
      ∃ m, build n sets = some m ∧ m.Get k = some (lastWrite sets k)) ∧
    (∀ (K V : Type) [Hasher K] [DecidableEq K] (sets : List (K × V)) (k : K),
      ∃ m, build 1 sets = some m ∧ m.Get k = some (lastWrite sets k)) := by
  constructor
  · intro K V _ _ n sets k hn hsets hk
    obtain ⟨m, hm, -, -, hget⟩ := build_spec hn sets
      (fun p hp => bucketIndex_nonneg_of_hash (hsets p hp))
    exact ⟨m, hm, hget k (bucketIndex_nonneg_of_hash hk)⟩
  · intro K V _ _ sets k
    obtain ⟨m, hm, -, -, hget⟩ := build_spec (by decide : (0 : Int) < 1) sets
      (fun p _ => le_of_eq (bucketIndex_one p.1).symm)
    exact ⟨m, hm, hget k (le_of_eq (bucketIndex_one k).symm)⟩


/-- Witness of C1: four buckets, the key "a" already present with value 1, then set to 7. -/
theorem C1_set_then_get_witness :
    (0 : Int) < 4 ∧
    (∀ p ∈ [((StringHash.mk [97]), (1 : Nat))], 0 ≤ Hasher.hash p.1) ∧
    0 ≤ Hasher.hash (StringHash.mk [97]) ∧
    ∃ m m1, build 4 [((StringHash.mk [97]), (1 : Nat))] = some m ∧
      m.Set (StringHash.mk [97]) 7 = some m1 ∧
      m1.Get (StringHash.mk [97]) = some (some 7, true) :=
  ⟨by decide, by decide, by decide,
    C1_set_then_get 4 (by decide) [((StringHash.mk [97]), (1 : Nat))] (by decide)
      (StringHash.mk [97]) (by decide) 7⟩

/-- Witness of C2: four buckets and the keys "a" and "e", of hash codes 97 and 101, both in
bucket 1, with the values 1 and 2. -/
theorem C2_distinct_keys_witness :
    StringHash.hash (StringHash.mk [97]) = 97 ∧ StringHash.hash (StringHash.mk [101]) = 101 ∧
    bucketIndex 4 (StringHash.mk [97]) = 1 ∧ bucketIndex 4 (StringHash.mk [101]) = 1 ∧
    ∃ m m1 m2, build 4 ([] : List (StringHash × Nat)) = some m ∧
      m.Set (StringHash.mk [97]) 1 = some m1 ∧ m1.Set (StringHash.mk [101]) 2 = some m2 ∧
      m2.Get (StringHash.mk [97]) = some (some 1, true) ∧
      m2.Get (StringHash.mk [101]) = some (some 2, true) :=
  ⟨by decide, by decide, by decide, by decide,
    C2_distinct_keys 4 (by decide) [] (by simp) (StringHash.mk [97]) (StringHash.mk [101])
      (by decide) (by decide) (by decide) 1 2⟩

/-- Witness of C3: four buckets holding "e", then "a" set to 1 and to 2. -/
theorem C3_update_not_append_witness :
    (0 : Int) < 4 ∧
    (∀ p ∈ [((StringHash.mk [101]), (5 : Nat))], 0 ≤ Hasher.hash p.1) ∧
    0 ≤ Hasher.hash (StringHash.mk [97]) ∧
    ∃ m m1 m2, build 4 [((StringHash.mk [101]), (5 : Nat))] = some m ∧
      m.Set (StringHash.mk [97]) 1 = some m1 ∧ m1.Set (StringHash.mk [97]) 2 = some m2 ∧
      m2.entries.filter (fun it => decide (it.key = StringHash.mk [97]))
        = [⟨StringHash.mk [97], 2⟩] :=
  ⟨by decide, by decide, by decide,
    C3_update_not_append 4 (by decide) [((StringHash.mk [101]), (5 : Nat))] (by decide)
      (StringHash.mk [97]) (by decide) 1 2⟩

/-- Witness of C4: four buckets holding "a"; the key "e" of the same bucket was never set. -/
theorem C4_get_absent_witness :
    (0 : Int) < 4 ∧
    (∀ p ∈ [((StringHash.mk [97]), (1 : Nat))], 0 ≤ Hasher.hash p.1) ∧
    0 ≤ Hasher.hash (StringHash.mk [101]) ∧
    (∀ p ∈ [((StringHash.mk [97]), (1 : Nat))], p.1 ≠ StringHash.mk [101]) ∧
    (∃ m, build 4 [((StringHash.mk [97]), (1 : Nat))] = some m ∧
      m.Get (StringHash.mk [101]) = some (none, false)) ∧
    (∃ m0 : ChHash StringHash Nat, NewChHash 4 = some m0 ∧
      m0.Get (StringHash.mk [101]) = some (none, false)) :=
  ⟨by decide, by decide, by decide, by decide,
    C4_get_absent 4 (by decide) [((StringHash.mk [97]), (1 : Nat))] (by decide)
      (StringHash.mk [101]) (by decide) (by decide)⟩

set_option maxRecDepth 100000 in
/-- Witness of C5: three writes on two colliding keys in four buckets, and the single
bucket with fifty distinct integer keys, negative ones among them, every one of which is
retrieved with its value. -/
theorem C5_last_write_wins_witness :
    ((0 : Int) < 4 ∧
      (∀ p ∈ [((StringHash.mk [97]), (1 : Nat)), ((StringHash.mk [101]), 2),
        ((StringHash.mk [97]), 3)], 0 ≤ Hasher.hash p.1) ∧
      0 ≤ Hasher.hash (StringHash.mk [97]) ∧
      ∃ m, build 4 [((StringHash.mk [97]), (1 : Nat)), ((StringHash.mk [101]), 2),
          ((StringHash.mk [97]), 3)] = some m ∧
        m.Get (StringHash.mk [97]) = some (some 3, true)) ∧
    (∀ i ∈ List.range 50, ∃ m, build 1 fiftyWrites = some m ∧
        m.Get (IntKey.mk ((i : Int) - 25)) = some (some i, true)) := by
  refine ⟨⟨by decide, by decide, by decide, ?_⟩, ?_⟩
  · exact C5_last_write_wins.1 StringHash Nat 4 _ (StringHash.mk [97])
      (by decide) (by decide) (by decide)
  · have hl : ∀ i ∈ List.range 50,
        lastWrite fiftyWrites (IntKey.mk ((i : Int) - 25)) = (some i, true) := by decide
    intro i hi
    obtain ⟨m, hm, hg⟩ := C5_last_write_wins.2 IntKey Nat fiftyWrites (IntKey.mk ((i : Int) - 25))
    exact ⟨m, hm, by rw [hg, hl i hi]⟩


/-- C6: for `n > 0`, `NewChHash(n)` establishes the invariant `Inv` (every entry of bucket
`i` has a key whose hash code modulo `n` is `i`, and no two entries of the table have equal
keys), `Set` on a key with a non-negative hash code returns and preserves it, `Delete`
preserves it, and so it holds after every sequence of `Set` and `Delete` calls on such
keys; there every stored key is the key of exactly one entry of the whole table. -/
theorem C6_invariant {K V : Type} [Hasher K] [DecidableEq K] (n : Int) (hn : 0 < n) :
    (∃ h : ChHash K V, NewChHash n = some h ∧ h.Shaped n ∧ h.Inv n) ∧
    (∀ (h : ChHash K V) (k : K) (v : V), h.Shaped n → h.Inv n → 0 ≤ Hasher.hash k →
      ∃ h1, h.Set k v = some h1 ∧ h1.Shaped n ∧ h1.Inv n) ∧
    (∀ (h : ChHash K V) (k : K), h.Shaped n → h.Inv n →
      (h.Delete k).Shaped n ∧ (h.Delete k).Inv n) ∧
    (∀ calls : List (Call K V), (∀ c ∈ calls, 0 ≤ Hasher.hash c.key) →
      ∃ h m, NewChHash n = some h ∧ runCalls h calls = some m ∧ m.Inv n ∧
        ∀ it ∈ m.entries, m.entries.filter (fun x => decide (x.key = it.key)) = [it]) := by
  obtain ⟨h0, h0eq, h0s, -, -⟩ := NewChHash_shaped (K := K) (V := V) hn
  have h0c := NewChHash_chainInv hn h0eq
  refine ⟨⟨h0, h0eq, h0s, h0c.inv hn⟩, ?_, ?_, ?_⟩
  · intro h k v hs hi hk
    have hkb : 0 ≤ bucketIndex n k := bucketIndex_nonneg_of_hash hk
    have hset := hs.Set_eq hkb v
    exact ⟨_, hset, hs.Set_shaped hkb hset, (hi.chainInv.Set hs hkb hset).inv hn⟩
  · intro h k hs hi
    exact ⟨hs, hi⟩
  · intro calls hcalls
    obtain ⟨m, hm, -, hmc⟩ := runCalls_chainInv calls h0s h0c
      (fun c hc => bucketIndex_nonneg_of_hash (hcalls c hc))
    exact ⟨h0, m, h0eq, hm, hmc.inv hn,
      fun it hit => filter_key_of_nodup hmc.nodup_entries hit⟩

/-- Witness of C6: four buckets; "a" set, "e" set, "a" deleted, "a" set again. -/
theorem C6_invariant_witness :
    (0 : Int) < 4 ∧
    (∀ c ∈ [Call.set (StringHash.mk [97]) (1 : Nat), Call.set (StringHash.mk [101]) 2,
        Call.delete (StringHash.mk [97]), Call.set (StringHash.mk [97]) 3],
      0 ≤ Hasher.hash c.key) ∧
    ∃ h m, NewChHash 4 = some h ∧
      runCalls h [Call.set (StringHash.mk [97]) (1 : Nat), Call.set (StringHash.mk [101]) 2,
        Call.delete (StringHash.mk [97]), Call.set (StringHash.mk [97]) 3] = some m ∧
      m.Inv 4 ∧
      ∀ it ∈ m.entries, m.entries.filter (fun x => decide (x.key = it.key)) = [it] :=
  ⟨by decide, by decide,
    (C6_invariant 4 (by decide)).2.2.2
      [Call.set (StringHash.mk [97]) (1 : Nat), Call.set (StringHash.mk [101]) 2,
        Call.delete (StringHash.mk [97]), Call.set (StringHash.mk [97]) 3] (by decide)⟩

/-- C7 as stated fails: it does not hold for every `Hasher` implementation.  For a key of
hash code -1 and four buckets the bucket index computed by `lookup` and `Set` is -1,
outside `[0, 4)`, and `lookup`, `Get` and `Set` on the freshly built map fail on the table
index instead of returning. -/
theorem C7_counterexample :
    ¬ (∀ (K : Type) [Hasher K] (n : Int) (k : K), 0 < n →
        0 ≤ bucketIndex n k ∧ bucketIndex n k < n) ∧
    Hasher.hash (IntKey.mk (-1)) = -1 ∧
    goRem (Hasher.hash (IntKey.mk (-1))) 4 = some (-1) ∧
    bucketIndex 4 (IntKey.mk (-1)) = -1 ∧
    ∃ h : ChHash IntKey Nat, NewChHash 4 = some h ∧
      sliceAt h.table (-1) = none ∧
      h.lookup (IntKey.mk (-1)) = none ∧
      h.Get (IntKey.mk (-1)) = none ∧ h.Set (IntKey.mk (-1)) 0 = none := by
  refine ⟨?_, by decide, by decide, by decide, _, rfl, by decide, by decide, by decide,
    by decide⟩
  intro hall
  have h := (hall IntKey 4 (IntKey.mk (-1)) (by decide)).1
  exact absurd h (by decide)

/-- C7, amended: for every bucket count `n > 0` and every key `k` whose hash code is
non-negative, the bucket index `hash(k) % n` that `lookup` and `Set` compute lies in
`[0, n)`, and on every map with `n` buckets indexing the bucket table with it succeeds, so
`lookup`, `Get` and `Set` return. -/
theorem C7_index_in_range {K V : Type} [Hasher K] [DecidableEq K] (n : Int) (hn : 0 < n)
    (k : K) (hk : 0 ≤ Hasher.hash k) :
    goRem (Hasher.hash k) n = some (bucketIndex n k) ∧
    0 ≤ bucketIndex n k ∧ bucketIndex n k < n ∧
    ∀ h : ChHash K V, h.Shaped n →
      (∃ chain, sliceAt h.table (bucketIndex n k) = some chain) ∧
      (∃ r, h.lookup k = some r) ∧ (∃ r, h.Get k = some r) ∧
      ∀ v : V, ∃ h1, h.Set k v = some h1 := by
  have hkb : 0 ≤ bucketIndex n k := bucketIndex_nonneg_of_hash hk
  have hne : n ≠ 0 := by omega
  refine ⟨by simp [goRem, hne, bucketIndex], hkb, bucketIndex_lt hn k, ?_⟩
  intro h hs
  exact ⟨⟨_, hs.sliceAt_eq hkb⟩, ⟨_, hs.lookup_eq hkb⟩, ⟨_, hs.Get_eq hkb⟩,
    fun v => ⟨_, hs.Set_eq hkb v⟩⟩

/-- Witness of C7 amended: four buckets and the key "e", of hash code 101 and bucket 1. -/
theorem C7_index_in_range_witness :
    (0 : Int) < 4 ∧ 0 ≤ Hasher.hash (StringHash.mk [101]) ∧
    goRem (Hasher.hash (StringHash.mk [101])) 4 = some (bucketIndex 4 (StringHash.mk [101])) ∧
    bucketIndex 4 (StringHash.mk [101]) = 1 ∧
    0 ≤ bucketIndex 4 (StringHash.mk [101]) ∧ bucketIndex 4 (StringHash.mk [101]) < 4 ∧
    ∀ h : ChHash StringHash Nat, h.Shaped 4 →
      (∃ chain, sliceAt h.table (bucketIndex 4 (StringHash.mk [101])) = some chain) ∧
      (∃ r, h.lookup (StringHash.mk [101]) = some r) ∧
      (∃ r, h.Get (StringHash.mk [101]) = some r) ∧
      ∀ v : Nat, ∃ h1, h.Set (StringHash.mk [101]) v = some h1 :=
  ⟨by decide, by decide,
    (C7_index_in_range (V := Nat) 4 (by decide) (StringHash.mk [101]) (by decide)).1,
    by decide,
    (C7_index_in_range (V := Nat) 4 (by decide) (StringHash.mk [101]) (by decide)).2⟩

/-- C8 as stated fails: with four buckets, after `Set("a", 1)` and `Delete("a")` the call
`Get("a")` returns `(1, true)`, so it reports presence. -/
theorem C8_counterexample :
    (build 4 [((StringHash.mk [97]), (1 : Nat))]).bind
        (fun m => (m.Delete (StringHash.mk [97])).Get (StringHash.mk [97]))
      = some (some 1, true) := by
  decide

/-- C8, amended: on every map built by `NewChHash(n)`, `n > 0`, and `Set` calls, for every
key `k` with a non-negative hash code, `Get(k)` after `Delete(k)` returns what `Get(k)`
returned before the `Delete`, and it reports absence exactly when `k` is none of the keys
that were set. -/
theorem C8_delete_then_get {K V : Type} [Hasher K] [DecidableEq K] (n : Int) (hn : 0 < n)
    (sets : List (K × V)) (hsets : ∀ p ∈ sets, 0 ≤ Hasher.hash p.1) (k : K)
    (hk : 0 ≤ Hasher.hash k) :
    ∃ m r, build n sets = some m ∧ (m.Delete k).Get k = some r ∧ m.Get k = some r ∧
      (r.2 = false ↔ ∀ p ∈ sets, p.1 ≠ k) := by
  obtain ⟨m, hm, -, -, hget⟩ := build_spec hn sets
    (fun p hp => bucketIndex_nonneg_of_hash (hsets p hp))
  have hg := hget k (bucketIndex_nonneg_of_hash hk)
  refine ⟨m, lastWrite sets k, hm, hg, hg, ?_⟩
  rw [lastWrite_absent]
  simp only [List.mem_map, not_exists, not_and]

/-- Witness of C8 amended: four buckets, "a" set to 1, then `Delete("e")` and `Get("e")`. -/
theorem C8_delete_then_get_witness :
    (0 : Int) < 4 ∧
    (∀ p ∈ [((StringHash.mk [97]), (1 : Nat))], 0 ≤ Hasher.hash p.1) ∧
    0 ≤ Hasher.hash (StringHash.mk [101]) ∧
    ∃ m r, build 4 [((StringHash.mk [97]), (1 : Nat))] = some m ∧
      (m.Delete (StringHash.mk [101])).Get (StringHash.mk [101]) = some r ∧
      m.Get (StringHash.mk [101]) = some r ∧
      (r.2 = false ↔ ∀ p ∈ [((StringHash.mk [97]), (1 : Nat))], p.1 ≠ StringHash.mk [101]) :=
  ⟨by decide, by decide, by decide,
    C8_delete_then_get 4 (by decide) [((StringHash.mk [97]), (1 : Nat))] (by decide)
      (StringHash.mk [101]) (by decide)⟩

/-- C9: `Delete` changes nothing: for every map and every key `k`, after `Delete(k)` the
bucket count, the table with all its chains and the length field are those of before, and
`Get` of every key, `k` included, returns what it returned before. -/
theorem C9_delete_noop {K V : Type} [Hasher K] [DecidableEq K] (h : ChHash K V) (k : K) :
    (h.Delete k).count = h.count ∧ (h.Delete k).table = h.table ∧
    (h.Delete k).len = h.len ∧ ∀ other : K, (h.Delete k).Get other = h.Get other :=
  ⟨rfl, rfl, rfl, fun _ => rfl⟩

/-- C10, evaluated on the code: after `NewChHash(1)` and `Set("a", 1)` the table holds one
entry and the field `len` is 0; `Set` never assigns `len`. -/
theorem C10_len_not_counted :
    ∃ m, build 1 [((StringHash.mk [97]), (1 : Nat))] = some m ∧
      m.entries.length = 1 ∧ m.len = 0 :=
  ⟨_, rfl, by decide, by decide⟩


/-! ## Frame of `Set`, construction, and the empty table -/

theorem ChHash.Shaped.Get_of_neg {K V : Type} [Hasher K] [DecidableEq K] {h : ChHash K V}
    {n : Int} (hs : h.Shaped n) {key : K} (hk : bucketIndex n key < 0) : h.Get key = none := by
  unfold ChHash.Get ChHash.lookup
  rw [hs.goRem_eq key]
  simp [sliceAt, hk]

/-- C11: on every map with `n > 0` buckets (bucket count `n`, table of `n` buckets), for
every key `k` with a non-negative hash code and every value `v`, `Set(k, v)` returns and
leaves the bucket count, the length field, the number of buckets and every bucket at an
index other than `hash(k) % n` as they were; and `Get` of every key other than `k` returns
after the `Set` what it returned before. -/
theorem C11_set_frame {K V : Type} [Hasher K] [DecidableEq K] (n : Int) (h : ChHash K V)
    (hs : h.Shaped n) (k : K) (hk : 0 ≤ Hasher.hash k) (v : V) :
    ∃ h1, h.Set k v = some h1 ∧ h1.count = h.count ∧ h1.len = h.len ∧
      h1.table.length = h.table.length ∧
      (∀ j : Nat, (j : Int) ≠ bucketIndex n k → h1.table[j]? = h.table[j]?) ∧
      (∀ other : K, other ≠ k → h1.Get other = h.Get other) := by
  have hkb : 0 ≤ bucketIndex n k := bucketIndex_nonneg_of_hash hk
  have hset := hs.Set_eq hkb v
  refine ⟨_, hset, rfl, rfl, by simp, ?_, ?_⟩
  · intro j hj
    have hne : (bucketIndex n k).toNat ≠ j := by omega
    simp [List.getElem?_set, hne]
  · intro other hne
    by_cases ho : 0 ≤ bucketIndex n other
    · exact hs.Get_Set_other hkb hset ho hne
    · have ho1 : bucketIndex n other < 0 := by omega
      rw [(hs.Set_shaped hkb hset).Get_of_neg ho1, hs.Get_of_neg ho1]

/-- Witness of C11: four buckets with "a" in bucket 1, and `Set("e", 2)`. -/
theorem C11_set_frame_witness :
    (ChHash.mk 4 [[], [⟨StringHash.mk [97], (1 : Nat)⟩], [], []] 0).Shaped 4 ∧
    0 ≤ Hasher.hash (StringHash.mk [101]) ∧
    ∃ h1, (ChHash.mk 4 [[], [⟨StringHash.mk [97], (1 : Nat)⟩], [], []] 0).Set
          (StringHash.mk [101]) 2 = some h1 ∧
      h1.count = 4 ∧ h1.len = 0 ∧ h1.table.length = 4 ∧
      (∀ j : Nat, (j : Int) ≠ bucketIndex 4 (StringHash.mk [101]) →
        h1.table[j]? = [[], [⟨StringHash.mk [97], (1 : Nat)⟩], [], []][j]?) ∧
      (∀ other : StringHash, other ≠ StringHash.mk [101] → h1.Get other =
        (ChHash.mk 4 [[], [⟨StringHash.mk [97], (1 : Nat)⟩], [], []] 0).Get other) :=
  ⟨⟨by decide, rfl, rfl⟩, by decide,
    C11_set_frame 4 (ChHash.mk 4 [[], [⟨StringHash.mk [97], (1 : Nat)⟩], [], []] 0)
      ⟨by decide, rfl, rfl⟩ (StringHash.mk [101]) (by decide) 2⟩

/-- C12 as stated fails: `NewChHash(n)` does not return for every `n ≥ 0`.  Where `make`
allocates at most `2 ^ 45` pointers, `NewChHash(1 << 60)` panics in `make`. -/
theorem C12_counterexample :
    (0 : Int) ≤ 2 ^ 60 ∧
    (NewChHashOn (2 ^ 45) (2 ^ 60) : Option (ChHash StringHash Nat)) = none := by
  constructor
  · norm_num
  · have h : ((2 ^ 45 : Nat) : Int) < 2 ^ 60 := by norm_num
    simp only [NewChHashOn, h, or_true, if_true]

/-- C12, amended: for every `n ≥ 0` within what `make` can allocate (`n ≤ lim`),
`NewChHash(n)` returns a map whose bucket count is `n`, whose table has exactly `n`
buckets, every one an empty chain, and whose length field is 0; for `n` above the limit
`make` panics and `NewChHash(n)` does not return. -/
theorem C12_new_empty {K V : Type} (lim : Nat) (n : Int) (hn : 0 ≤ n) :
    ((n ≤ (lim : Int)) →
      ∃ h : ChHash K V, NewChHashOn lim n = some h ∧ h.count = n ∧
        (h.table.length : Int) = n ∧ (∀ chain ∈ h.table, chain = []) ∧ h.len = 0) ∧
    (((lim : Int) < n) → (NewChHashOn lim n : Option (ChHash K V)) = none) := by
  constructor
  · intro hle
    have hneg : ¬ (n < 0 ∨ (lim : Int) < n) := by omega
    refine ⟨ChHash.mk n (List.replicate n.toNat []) 0, ?_, rfl, ?_, ?_, rfl⟩
    · simp only [NewChHashOn, hneg, if_false, list.New]
    · simp only [List.length_replicate]
      omega
    · intro chain hc
      exact List.eq_of_mem_replicate hc
  · intro hlt
    simp only [NewChHashOn, hlt, or_true, if_true]

/-- Witness of C12 amended: with room for `2 ^ 45` pointers, three buckets are built and
`2 ^ 50` buckets are not. -/
theorem C12_new_empty_witness :
    ((0 : Int) ≤ 3 ∧ (3 : Int) ≤ ((2 ^ 45 : Nat) : Int) ∧
      ∃ h : ChHash StringHash Nat, NewChHashOn (2 ^ 45) 3 = some h ∧ h.count = 3 ∧
        (h.table.length : Int) = 3 ∧ (∀ chain ∈ h.table, chain = []) ∧ h.len = 0) ∧
    ((0 : Int) ≤ 2 ^ 50 ∧ ((2 ^ 45 : Nat) : Int) < 2 ^ 50 ∧
      (NewChHashOn (2 ^ 45) (2 ^ 50) : Option (ChHash StringHash Nat)) = none) :=
  ⟨⟨by decide, by norm_num, (C12_new_empty (2 ^ 45) 3 (by decide)).1 (by norm_num)⟩,
    ⟨by norm_num, by norm_num,
      (C12_new_empty (2 ^ 45) (2 ^ 50) (by norm_num)).2 (by norm_num)⟩⟩

/-- C13: `NewChHash(0)` returns a map with bucket count 0 and no bucket; on that map, for
every key type and every key, the bucket index `hash % 0` fails, and so do `lookup`, `Get`
and `Set`: none of them returns. -/
theorem C13_zero_buckets (K V : Type) [Hasher K] [DecidableEq K] :
    ∃ h : ChHash K V, NewChHash 0 = some h ∧ h.count = 0 ∧ h.table = [] ∧
      ∀ k : K, goRem (Hasher.hash k) h.count = none ∧ h.lookup k = none ∧
        h.Get k = none ∧ ∀ v : V, h.Set k v = none := by
  refine ⟨ChHash.mk 0 [] 0, by simp [NewChHash_eq], rfl, rfl, ?_⟩
  intro k
  have hl : (ChHash.mk 0 [] 0 : ChHash K V).lookup k = none := by
    simp [ChHash.lookup, goRem]
  refine ⟨by simp [goRem], hl, ?_, ?_⟩
  · simp [ChHash.Get, hl]
  · intro v
    simp [ChHash.Set, hl]

/-! ## What `lookup` returns and what `Set` writes -/

theorem firstPos_before {K V : Type} [DecidableEq K] {key : K} {chain : List (item K V)}
    {j : Nat} (h : firstPos key chain = some j) :
    ∀ i < j, ∀ x, chain[i]? = some x → x.key ≠ key := by
  induction chain generalizing j with
  | nil => simp [firstPos] at h
  | cons it rest ih =>
    by_cases hk : it.key = key
    · simp [firstPos, hk] at h
      subst h
      intro i hi
      omega
    · simp only [firstPos, hk, if_false, Option.map_eq_some'] at h
      obtain ⟨j0, hj0, rfl⟩ := h
      intro i hi x hx
      cases i with
      | zero =>
        simp at hx
        subst hx
        exact hk
      | succ i0 =>
        simp at hx
        exact ih hj0 i0 (by omega) x hx

theorem firstPos_of_first {K V : Type} [DecidableEq K] {key : K} {chain : List (item K V)}
    {j : Nat} {it : item K V} (hit : chain[j]? = some it) (hkey : it.key = key)
    (hbefore : ∀ i < j, ∀ x, chain[i]? = some x → x.key ≠ key) :
    firstPos key chain = some j := by
  cases hp : firstPos key chain with
  | none =>
    exact absurd hkey (firstPos_eq_none.1 hp it (List.mem_iff_getElem?.2 ⟨j, hit⟩))
  | some p =>
    obtain ⟨-, x, hx, hxk⟩ := firstPos_some hp
    rcases Nat.lt_trichotomy p j with hlt | heq | hgt
    · exact absurd hxk (hbefore p hlt x hx)
    · rw [heq]
    · exact absurd hkey (firstPos_before hp j hgt it hit)

theorem length_flatten_set {α : Type} (table : List (List α)) (i : Nat) (old new : List α)
    (hi : table[i]? = some old) :
    (table.set i new).flatten.length + old.length = table.flatten.length + new.length := by
  induction table generalizing i with
  | nil => simp at hi
  | cons c rest ih =>
    cases i with
    | zero =>
      simp at hi
      subst hi
      simp only [List.set_cons_zero, List.flatten_cons, List.length_append]
      omega
    | succ i0 =>
      simp at hi
      have := ih i0 hi
      simp only [List.set_cons_succ, List.flatten_cons, List.length_append]
      omega

/-- C14: on every map with `n > 0` buckets and for every key `k` with a non-negative hash
code, `lookup(k)` returns; with `chain` the chain at index `hash(k) % n`, it returns nil
exactly when no entry of `chain` has key `k`, and it returns a pointer exactly to the first
entry of `chain`, in chain order, whose key is `k`.  Another map that has the same chain
at that index, or a chain that agrees with `chain` up to and including the first match,
gives the same result, whatever its other chains and the later entries are. -/
theorem C14_lookup_first_match {K V : Type} [Hasher K] [DecidableEq K] (n : Int)
    (h : ChHash K V) (hs : h.Shaped n) (k : K) (hk : 0 ≤ Hasher.hash k) :
    ∃ chain r, h.table[(bucketIndex n k).toNat]? = some chain ∧ h.lookup k = some r ∧
      (r = none ↔ ∀ it ∈ chain, it.key ≠ k) ∧
      (∀ p : itemPtr, r = some p ↔
        (p.bucket = (bucketIndex n k).toNat ∧ (∃ it, chain[p.node]? = some it ∧ it.key = k) ∧
          ∀ i < p.node, ∀ x, chain[i]? = some x → x.key ≠ k)) ∧
      (∀ p : itemPtr, r = some p → ∃ it, h.load p = some it ∧ it.key = k) ∧
      (∀ (g : ChHash K V) (gchain : List (item K V)), g.Shaped n →
        g.table[(bucketIndex n k).toNat]? = some gchain →
        (gchain = chain → g.lookup k = some r) ∧
        (∀ p : itemPtr, r = some p → gchain.take (p.node + 1) = chain.take (p.node + 1) →
          g.lookup k = some r)) := by
  have hkb : 0 ≤ bucketIndex n k := bucketIndex_nonneg_of_hash hk
  have htab := hs.table_chainOf hkb
  refine ⟨h.chainOf k, _, htab, hs.lookup_eq hkb, ?_, ?_, ?_, ?_⟩
  · rw [Option.map_eq_none', firstPos_eq_none]
  · intro p
    constructor
    · intro hp
      rw [Option.map_eq_some'] at hp
      obtain ⟨j, hj, rfl⟩ := hp
      obtain ⟨-, it, hit, hitk⟩ := firstPos_some hj
      exact ⟨rfl, ⟨it, hit, hitk⟩, firstPos_before hj⟩
    · rintro ⟨hb, ⟨it, hit, hitk⟩, hbefore⟩
      rw [firstPos_of_first hit hitk hbefore, Option.map_some']
      cases p
      simp only at hb
      rw [hb]
  · intro p hp
    rw [Option.map_eq_some'] at hp
    obtain ⟨j, hj, rfl⟩ := hp
    obtain ⟨-, it, hit, hitk⟩ := firstPos_some hj
    exact ⟨it, by simp only [ChHash.load, htab, hit], hitk⟩
  · intro g gchain hgs hgtab
    have hgc : g.chainOf k = gchain := by
      have := hgs.table_chainOf hkb
      rw [hgtab] at this
      exact (Option.some.inj this).symm
    rw [hgs.lookup_eq hkb, hgc]
    constructor
    · intro heq
      rw [heq]
    · intro p hp htake
      rw [Option.map_eq_some'] at hp
      obtain ⟨j, hj, rfl⟩ := hp
      obtain ⟨-, it, hit, hitk⟩ := firstPos_some hj
      have hagree : ∀ i ≤ j, gchain[i]? = (h.chainOf k)[i]? := by
        intro i hi
        have h1 : (gchain.take (j + 1))[i]? = gchain[i]? := by
          rw [List.getElem?_take]; simp; omega
        have h2 : ((h.chainOf k).take (j + 1))[i]? = (h.chainOf k)[i]? := by
          rw [List.getElem?_take]; simp; omega
        rw [← h1, ← h2]
        simp only at htake
        rw [htake]
      have hg : firstPos k gchain = some j := by
        refine firstPos_of_first ?_ hitk ?_
        · rw [hagree j (le_refl j)]; exact hit
        · intro i hi x hx
          rw [hagree i (le_of_lt hi)] at hx
          exact firstPos_before hj i hi x hx
      rw [hg, hj]

/-- Witness of C14: four buckets, bucket 1 holding "a", "e" and "a" again; `lookup("e")`. -/
theorem C14_lookup_first_match_witness :
    (ChHash.mk 4 [[], [⟨StringHash.mk [97], (1 : Nat)⟩, ⟨StringHash.mk [101], 2⟩,
      ⟨StringHash.mk [101], 3⟩], [], []] 0).Shaped 4 ∧
    0 ≤ Hasher.hash (StringHash.mk [101]) ∧
    (ChHash.mk 4 [[], [⟨StringHash.mk [97], (1 : Nat)⟩, ⟨StringHash.mk [101], 2⟩,
      ⟨StringHash.mk [101], 3⟩], [], []] 0).lookup (StringHash.mk [101])
      = some (some ⟨1, 1⟩) ∧
    ∃ chain r, (ChHash.mk 4 [[], [⟨StringHash.mk [97], (1 : Nat)⟩, ⟨StringHash.mk [101], 2⟩,
        ⟨StringHash.mk [101], 3⟩], [], []] 0).table[
          (bucketIndex 4 (StringHash.mk [101])).toNat]? = some chain ∧
      (ChHash.mk 4 [[], [⟨StringHash.mk [97], (1 : Nat)⟩, ⟨StringHash.mk [101], 2⟩,
        ⟨StringHash.mk [101], 3⟩], [], []] 0).lookup (StringHash.mk [101]) = some r ∧
      (r = none ↔ ∀ it ∈ chain, it.key ≠ StringHash.mk [101]) := by
  obtain ⟨chain, r, h1, h2, h3, -⟩ := C14_lookup_first_match 4
    (ChHash.mk 4 [[], [⟨StringHash.mk [97], (1 : Nat)⟩, ⟨StringHash.mk [101], 2⟩,
      ⟨StringHash.mk [101], 3⟩], [], []] 0) ⟨by decide, rfl, rfl⟩
    (StringHash.mk [101]) (by decide)
  exact ⟨⟨by decide, rfl, rfl⟩, by decide, by decide, chain, r, h1, h2, h3⟩

/-- C15: on every map with `n > 0` buckets, for every key `k` with a non-negative hash code
for which `Get(k)` reports absence, `Set(k, v)` returns, the chain at index `hash(k) % n`
becomes the old chain followed by the one new entry `(k, v)`, nothing else in the table
changes, and the total number of entries grows by exactly one. -/
theorem C15_set_absent_appends {K V : Type} [Hasher K] [DecidableEq K] (n : Int)
    (h : ChHash K V) (hs : h.Shaped n) (k : K) (hk : 0 ≤ Hasher.hash k) (v : V)
    (habs : h.Get k = some (none, false)) :
    ∃ h1 chain, h.Set k v = some h1 ∧
      h.table[(bucketIndex n k).toNat]? = some chain ∧
      h1.table[(bucketIndex n k).toNat]? = some (chain ++ [⟨k, v⟩]) ∧
      h1.table = h.table.set (bucketIndex n k).toNat (chain ++ [⟨k, v⟩]) ∧
      h1.entries.length = h.entries.length + 1 := by
  have hkb : 0 ≤ bucketIndex n k := bucketIndex_nonneg_of_hash hk
  have htab := hs.table_chainOf hkb
  have hlt := hs.bucket_lt hkb
  have hfp : firstPos k (h.chainOf k) = none := by
    cases hp : firstPos k (h.chainOf k) with
    | none => rfl
    | some j =>
      obtain ⟨hfind, it, hit, -⟩ := firstPos_some hp
      rw [hs.Get_eq hkb, ← hfind, hit] at habs
      simp [getResult] at habs
  have hset := hs.Set_eq hkb v
  rw [upsert_of_firstPos_none hfp] at hset
  refine ⟨_, h.chainOf k, hset, htab, ?_, rfl, ?_⟩
  · simp [List.getElem?_set, hlt]
  · have := length_flatten_set h.table _ _ (h.chainOf k ++ [⟨k, v⟩]) htab
    simp only [ChHash.entries, List.length_append, List.length_singleton] at this ⊢
    omega

/-- Witness of C15: four buckets with "a" in bucket 1, and `Set("e", 2)`. -/
theorem C15_set_absent_appends_witness :
    (ChHash.mk 4 [[], [⟨StringHash.mk [97], (1 : Nat)⟩], [], []] 0).Shaped 4 ∧
    0 ≤ Hasher.hash (StringHash.mk [101]) ∧
    (ChHash.mk 4 [[], [⟨StringHash.mk [97], (1 : Nat)⟩], [], []] 0).Get (StringHash.mk [101])
      = some (none, false) ∧
    ∃ h1 chain, (ChHash.mk 4 [[], [⟨StringHash.mk [97], (1 : Nat)⟩], [], []] 0).Set
          (StringHash.mk [101]) 2 = some h1 ∧
      [[], [⟨StringHash.mk [97], (1 : Nat)⟩], [], []][
        (bucketIndex 4 (StringHash.mk [101])).toNat]? = some chain ∧
      h1.table[(bucketIndex 4 (StringHash.mk [101])).toNat]?
        = some (chain ++ [⟨StringHash.mk [101], 2⟩]) ∧
      h1.table = [[], [⟨StringHash.mk [97], (1 : Nat)⟩], [], []].set
        (bucketIndex 4 (StringHash.mk [101])).toNat (chain ++ [⟨StringHash.mk [101], 2⟩]) ∧
      h1.entries.length = 1 + 1 :=
  ⟨⟨by decide, rfl, rfl⟩, by decide, by decide,
    C15_set_absent_appends 4 (ChHash.mk 4 [[], [⟨StringHash.mk [97], (1 : Nat)⟩], [], []] 0)
      ⟨by decide, rfl, rfl⟩ (StringHash.mk [101]) (by decide) 2 (by decide)⟩

/-- C16: on every map with `n > 0` buckets, for every key `k` with a non-negative hash code
for which `Get(k)` reports presence, `Set(k, v)` returns; the table after it is the table
before with one entry replaced, the first entry with key `k` of the chain at index
`hash(k) % n`, which now holds `v` under the same key.  So every chain keeps its length
and its sequence of keys, and every other entry is what it was. -/
theorem C16_set_present_updates {K V : Type} [Hasher K] [DecidableEq K] (n : Int)
    (h : ChHash K V) (hs : h.Shaped n) (k : K) (hk : 0 ≤ Hasher.hash k) (v : V)
    (hpres : ∃ r, h.Get k = some r ∧ r.2 = true) :
    ∃ h1 chain p it, h.Set k v = some h1 ∧
      h.table[(bucketIndex n k).toNat]? = some chain ∧
      chain[p]? = some it ∧ it.key = k ∧
      (∀ i < p, ∀ x, chain[i]? = some x → x.key ≠ k) ∧
      h1.table = h.table.set (bucketIndex n k).toNat (chain.set p ⟨k, v⟩) ∧
      h1.table.map (List.map item.key) = h.table.map (List.map item.key) ∧
      h1.table.map List.length = h.table.map List.length ∧
      h1.load ⟨(bucketIndex n k).toNat, p⟩ = some ⟨k, v⟩ ∧
      (∀ q : itemPtr, q ≠ ⟨(bucketIndex n k).toNat, p⟩ → h1.load q = h.load q) := by
  have hkb : 0 ≤ bucketIndex n k := bucketIndex_nonneg_of_hash hk
  have htab := hs.table_chainOf hkb
  have hlt := hs.bucket_lt hkb
  obtain ⟨r, hr, hr2⟩ := hpres
  obtain ⟨p, hp⟩ : ∃ p, firstPos k (h.chainOf k) = some p := by
    cases hp : firstPos k (h.chainOf k) with
    | some j => exact ⟨j, rfl⟩
    | none =>
      rw [hs.Get_eq hkb, find_eq_none_of_firstPos hp] at hr
      simp only [getResult, Option.some.injEq] at hr
      rw [← hr] at hr2
      cases hr2
  obtain ⟨-, it, hit, hitk⟩ := firstPos_some hp
  have hset := hs.Set_eq hkb v
  rw [upsert_of_firstPos_some hp hit] at hset
  have hnew : ({ it with val := v } : item K V) = ⟨k, v⟩ := by rw [← hitk]
  rw [hnew] at hset
  obtain ⟨hplt, hget⟩ := List.getElem?_eq_some_iff.1 hit
  have htabget : h.table[(bucketIndex n k).toNat] = h.chainOf k :=
    (List.getElem?_eq_some_iff.1 htab).2
  have hkeys : ((h.chainOf k).set p ⟨k, v⟩).map item.key = (h.chainOf k).map item.key := by
    rw [List.map_set]
    apply List.ext_getElem? 
    intro i
    rw [List.getElem?_set]
    by_cases hpi : p = i
    · subst hpi
      simp [hplt, hget, hitk]
    · simp [hpi]
  have hmapset : ∀ {β : Type} (f : List (item K V) → β),
      f ((h.chainOf k).set p ⟨k, v⟩) = f (h.chainOf k) →
      (h.table.set (bucketIndex n k).toNat ((h.chainOf k).set p ⟨k, v⟩)).map f
        = h.table.map f := by
    intro β f hf
    rw [List.map_set, hf]
    apply List.ext_getElem?
    intro i
    rw [List.getElem?_set]
    by_cases hbi : (bucketIndex n k).toNat = i
    · subst hbi
      simp [hlt, htabget]
    · simp [hbi]
  refine ⟨_, h.chainOf k, p, it, hset, htab, hit, hitk, firstPos_before hp, rfl,
    hmapset _ hkeys, hmapset _ (by simp), ?_, ?_⟩
  · simp [ChHash.load, List.getElem?_set, hlt, hplt]
  · intro q hq
    simp only [ChHash.load, List.getElem?_set]
    by_cases hb : (bucketIndex n k).toNat = q.bucket
    · rw [if_pos hb, if_pos hlt, ← hb, htab]
      have hnode : p ≠ q.node := by
        intro hpq
        apply hq
        cases q
        simp only at hb hpq
        rw [hb, hpq]
      simp [List.getElem?_set, hnode]
    · rw [if_neg hb]

/-- Witness of C16: four buckets, bucket 1 holding "a" and "e"; `Set("e", 9)`. -/
theorem C16_set_present_updates_witness :
    (ChHash.mk 4 [[], [⟨StringHash.mk [97], (1 : Nat)⟩, ⟨StringHash.mk [101], 2⟩],
      [], []] 0).Shaped 4 ∧
    0 ≤ Hasher.hash (StringHash.mk [101]) ∧
    (ChHash.mk 4 [[], [⟨StringHash.mk [97], (1 : Nat)⟩, ⟨StringHash.mk [101], 2⟩],
      [], []] 0).Get (StringHash.mk [101]) = some (some 2, true) ∧
    (ChHash.mk 4 [[], [⟨StringHash.mk [97], (1 : Nat)⟩, ⟨StringHash.mk [101], 2⟩],
      [], []] 0).Set (StringHash.mk [101]) 9
      = some (ChHash.mk 4 [[], [⟨StringHash.mk [97], (1 : Nat)⟩, ⟨StringHash.mk [101], 9⟩],
        [], []] 0) ∧
    ∃ (h1 : ChHash StringHash Nat) (chain : List (item StringHash Nat)) (p : Nat)
        (it : item StringHash Nat),
      (ChHash.mk 4 [[], [⟨StringHash.mk [97], (1 : Nat)⟩,
        ⟨StringHash.mk [101], 2⟩], [], []] 0).Set (StringHash.mk [101]) 9 = some h1 ∧
      [[], [⟨StringHash.mk [97], (1 : Nat)⟩, ⟨StringHash.mk [101], 2⟩], [], []][
        (bucketIndex 4 (StringHash.mk [101])).toNat]? = some chain ∧
      chain[p]? = some it ∧ it.key = StringHash.mk [101] ∧
      h1.load ⟨(bucketIndex 4 (StringHash.mk [101])).toNat, p⟩
        = some ⟨StringHash.mk [101], 9⟩ := by
  obtain ⟨h1, chain, p, it, e1, e2, e3, e4, -, -, -, -, e5, -⟩ :=
    C16_set_present_updates 4
      (ChHash.mk 4 [[], [⟨StringHash.mk [97], (1 : Nat)⟩, ⟨StringHash.mk [101], 2⟩],
        [], []] 0) ⟨by decide, rfl, rfl⟩ (StringHash.mk [101]) (by decide) 9
      ⟨(some 2, true), by decide, rfl⟩
  exact ⟨⟨by decide, rfl, rfl⟩, by decide, by decide, by decide,
    h1, chain, p, it, e1, e2, e3, e4, e5⟩


/-! ## The hash code of `StringHash` -/

theorem testBit_topNibble (i : Nat) :
    Nat.testBit 0xf0000000 i = decide (28 ≤ i ∧ i < 32) := by
  have h : (0xf0000000 : Nat) = (2 ^ 4 - 1) <<< 28 := by decide
  rw [h, Nat.testBit_shiftLeft, Nat.testBit_two_pow_sub_one]
  by_cases h1 : 28 ≤ i <;> by_cases h2 : i < 32 <;> simp [h1, h2] <;> omega

theorem hashRound_testBit_top (w val : Nat) (c : Fin 256) (i : Nat) (h1 : 28 ≤ i)
    (h2 : i < 32) : (hashRound w val c).testBit i = false := by
  unfold hashRound
  simp only []
  split
  · have h3 : ¬ (28 ≤ 24 + i ∧ 24 + i < 32) := by omega
    simp [Nat.testBit_xor, Nat.testBit_shiftRight, Nat.testBit_and, testBit_topNibble, h1, h2, h3]
  · rename_i hz
    have hz0 : ((val <<< 4 + c.val) % 2 ^ w) &&& 0xf0000000 = 0 := by simpa using hz
    have := congrArg (fun y => Nat.testBit y i) hz0
    simpa [Nat.testBit_and, testBit_topNibble, h1, h2] using this

theorem hashRound_testBit_high (w val : Nat) (c : Fin 256) (i : Nat) (h1 : 32 ≤ i) :
    (hashRound w val c).testBit i = (((val <<< 4) + c.val) % 2 ^ w).testBit i := by
  unfold hashRound
  simp only []
  split
  · have h3 : ¬ (28 ≤ 24 + i ∧ 24 + i < 32) := by omega
    have h4 : ¬ (28 ≤ i ∧ i < 32) := by omega
    simp [Nat.testBit_xor, Nat.testBit_shiftRight, Nat.testBit_and, testBit_topNibble, h3, h4]
  · rfl

theorem hashRound_topNibble (w val : Nat) (c : Fin 256) :
    hashRound w val c &&& 0xf0000000 = 0 := by
  apply Nat.eq_of_testBit_eq
  intro i
  rw [Nat.testBit_and, testBit_topNibble, Nat.zero_testBit]
  by_cases h : 28 ≤ i ∧ i < 32
  · simp [hashRound_testBit_top w val c i h.1 h.2]
  · simp [h]

theorem hashRound_nibble7 (w val : Nat) (c : Fin 256) :
    (hashRound w val c / 2 ^ 28) % 2 ^ 4 = 0 := by
  apply Nat.eq_of_testBit_eq
  intro i
  rw [Nat.testBit_mod_two_pow, ← Nat.shiftRight_eq_div_pow, Nat.testBit_shiftRight,
    Nat.zero_testBit]
  by_cases h : i < 4
  · simp [hashRound_testBit_top w val c (28 + i) (by omega) (by omega)]
  · simp [h]

theorem hashRound_high (w val : Nat) (c : Fin 256) :
    hashRound w val c / 2 ^ 32 = (((val <<< 4) + c.val) % 2 ^ w) / 2 ^ 32 := by
  apply Nat.eq_of_testBit_eq
  intro i
  rw [← Nat.shiftRight_eq_div_pow, ← Nat.shiftRight_eq_div_pow, Nat.testBit_shiftRight,
    Nat.testBit_shiftRight]
  exact hashRound_testBit_high w val c (32 + i) (by omega)

theorem nibbles_shift (H b : Nat) (hb : b ≤ 1) (hH : ∀ i < 8, (H / 16 ^ i) % 16 ≤ 1) :
    ∀ i < 8, ((16 * H + b) % 2 ^ 32 / 16 ^ i) % 16 ≤ 1 := by
  have h0 := hH 0 (by omega)
  have h1 := hH 1 (by omega)
  have h2 := hH 2 (by omega)
  have h3 := hH 3 (by omega)
  have h4 := hH 4 (by omega)
  have h5 := hH 5 (by omega)
  have h6 := hH 6 (by omega)
  norm_num at h0 h1 h2 h3 h4 h5 h6
  intro i hi
  interval_cases i <;> norm_num <;> omega

theorem step_high (val c : Nat) (hl : val % 2 ^ 32 < 2 ^ 28) (hc : c < 256) :
    ∃ b, b ≤ 1 ∧ (val * 2 ^ 4 + c) % 2 ^ 64 / 2 ^ 32 = (16 * (val / 2 ^ 32) + b) % 2 ^ 32 := by
  refine ⟨(16 * (val % 2 ^ 32) + c) / 2 ^ 32, ?_, ?_⟩
  · omega
  · omega

theorem accOk_round (val : Nat) (c : Fin 256) (h : accOk val) : accOk (hashRound 64 val c) := by
  obtain ⟨-, hl, hn⟩ := h
  have hhigh := hashRound_high 64 val c
  have hnib := hashRound_nibble7 64 val c
  rw [Nat.shiftLeft_eq] at hhigh
  obtain ⟨b, hb, hstep⟩ := step_high val c.val hl c.isLt
  rw [hstep] at hhigh
  have hxlt : (16 * (val / 2 ^ 32) + b) % 2 ^ 32 < 2 ^ 32 := Nat.mod_lt _ (by norm_num)
  refine ⟨?_, ?_, ?_⟩
  · omega
  · omega
  · rw [hhigh]
    exact nibbles_shift _ b hb hn

theorem accOk_foldl (s : List (Fin 256)) (val : Nat) (h : accOk val) :
    accOk (s.foldl (hashRound 64) val) := by
  induction s generalizing val with
  | nil => exact h
  | cons c rest ih => exact ih _ (accOk_round val c h)

theorem accOk_hashBits (s : List (Fin 256)) : accOk (hashBits 64 s) :=
  accOk_foldl s 0 ⟨by norm_num, by norm_num, fun i _ => by simp⟩

theorem hashBits_lt (s : List (Fin 256)) : hashBits 64 s < 2 ^ 63 := by
  obtain ⟨h1, -, h3⟩ := accOk_hashBits s
  have h7 := h3 7 (by omega)
  norm_num at h7
  omega

theorem hash_eq_hashBits (s : StringHash) : StringHash.hash s = (hashBits 64 s.bytes : Int) := by
  unfold StringHash.hash toSigned
  rw [if_pos (hashBits_lt s.bytes)]

theorem hashBits_topNibble (w : Nat) (s : List (Fin 256)) :
    hashBits w s &&& 0xf0000000 = 0 := by
  rcases List.eq_nil_or_concat s with rfl | ⟨init, c, rfl⟩
  · simp [hashBits]
  · unfold hashBits
    rw [List.concat_eq_append, List.foldl_append]
    exact hashRound_topNibble w _ c

theorem hashRound32_lt (val : Nat) (c : Fin 256) : hashRound 32 val c < 2 ^ 28 := by
  have hhigh := hashRound_high 32 val c
  have hnib := hashRound_nibble7 32 val c
  have hx : (val <<< 4 + c.val) % 2 ^ 32 < 2 ^ 32 := Nat.mod_lt _ (by norm_num)
  omega

theorem hashBits32_lt (s : List (Fin 256)) : hashBits 32 s < 2 ^ 28 := by
  rcases List.eq_nil_or_concat s with rfl | ⟨init, c, rfl⟩
  · decide
  · unfold hashBits
    rw [List.concat_eq_append, List.foldl_append]
    exact hashRound32_lt _ c

/-- C17: for every byte string, bits 28 to 31 of the accumulator of `StringHash.hash` are
zero after every round of the loop (the value after `j` rounds is the accumulator of the
first `j` bytes), and so are those of the returned hash code: `hash(s) & 0xf0000000 = 0`.
The hash of the empty string is 0 and the hash of a one-byte string is the value of the
byte. -/
theorem C17_top_nibble_masked :
    (∀ (s : StringHash) (j : Nat), hashBits 64 (s.bytes.take j) &&& 0xf0000000 = 0) ∧
    (∀ (val : Nat) (c : Fin 256), hashRound 64 val c &&& 0xf0000000 = 0) ∧
    (∀ s : StringHash, Int.land (StringHash.hash s) 0xf0000000 = 0) ∧
    StringHash.hash (StringHash.mk []) = 0 ∧
    (∀ c : Fin 256, StringHash.hash (StringHash.mk [c]) = (c.val : Int)) := by
  refine ⟨fun s j => hashBits_topNibble 64 _, fun val c => hashRound_topNibble 64 val c,
    ?_, by decide, ?_⟩
  · intro s
    rw [hash_eq_hashBits]
    show ((hashBits 64 s.bytes &&& 0xf0000000 : Nat) : Int) = 0
    rw [hashBits_topNibble]
    rfl
  · intro c
    rw [hash_eq_hashBits]
    have hc : c.val < 2 ^ 28 := lt_of_lt_of_le c.isLt (by norm_num)
    have hz : c.val &&& 0xf0000000 = 0 := by
      apply Nat.eq_of_testBit_eq
      intro i
      rw [Nat.testBit_and, testBit_topNibble, Nat.zero_testBit]
      by_cases h : 28 ≤ i ∧ i < 32
      · have : c.val < 2 ^ i := lt_of_lt_of_le hc (Nat.pow_le_pow_right (by norm_num) h.1)
        simp [Nat.testBit_lt_two_pow this]
      · simp [h]
    have hmod : (0 <<< 4 + c.val) % 2 ^ 64 = c.val := by
      simp only [Nat.zero_shiftLeft, Nat.zero_add]
      exact Nat.mod_eq_of_lt (lt_of_lt_of_le c.isLt (by norm_num))
    simp only [hashBits, List.foldl_cons, List.foldl_nil, hashRound, hmod, hz]
    simp

/-- C18: with the `int` of 64 bits, `StringHash.hash` is non-negative for every byte
string; so for every `n > 0` and every `StringHash` key the bucket index lies in `[0, n)`,
and on every map with `n > 0` buckets `lookup`, `Get` and `Set` on a `StringHash` key
return instead of failing on the table index. -/
theorem C18_stringhash_nonneg :
    (∀ s : StringHash, 0 ≤ StringHash.hash s) ∧
    (∀ (n : Int) (k : StringHash), 0 < n → 0 ≤ bucketIndex n k ∧ bucketIndex n k < n) ∧
    (∀ (V : Type) (n : Int) (h : ChHash StringHash V) (k : StringHash) (v : V), h.Shaped n →
      (∃ chain, sliceAt h.table (bucketIndex n k) = some chain) ∧
      (∃ r, h.lookup k = some r) ∧ (∃ r, h.Get k = some r) ∧ ∃ h1, h.Set k v = some h1) := by
  have hnn : ∀ s : StringHash, 0 ≤ StringHash.hash s := by
    intro s
    rw [hash_eq_hashBits]
    exact Int.ofNat_nonneg _
  refine ⟨hnn, ?_, ?_⟩
  · intro n k hn
    exact ⟨bucketIndex_nonneg_of_hash (hnn k), bucketIndex_lt hn k⟩
  · intro V n h k v hs
    have hkb : 0 ≤ bucketIndex n k := bucketIndex_nonneg_of_hash (hnn k)
    exact ⟨⟨_, hs.sliceAt_eq hkb⟩, ⟨_, hs.lookup_eq hkb⟩, ⟨_, hs.Get_eq hkb⟩,
      ⟨_, hs.Set_eq hkb v⟩⟩

/-- Witness of C18: the seven bytes F0 F0 F0 F0 F0 FF 10, whose hash code has bit 32 set,
as a key on a table of four buckets. -/
theorem C18_stringhash_nonneg_witness :
    StringHash.hash (StringHash.mk sevenBytes) = 4294967296 ∧
    (0 : Int) < 4 ∧
    (0 ≤ bucketIndex 4 (StringHash.mk sevenBytes) ∧ bucketIndex 4 (StringHash.mk sevenBytes) < 4) ∧
    (ChHash.mk 4 [[], [⟨StringHash.mk [97], (1 : Nat)⟩], [], []] 0).Shaped 4 ∧
    (∃ r, (ChHash.mk 4 [[], [⟨StringHash.mk [97], (1 : Nat)⟩], [], []] 0).Get
      (StringHash.mk sevenBytes) = some r) ∧
    ∃ h1, (ChHash.mk 4 [[], [⟨StringHash.mk [97], (1 : Nat)⟩], [], []] 0).Set
      (StringHash.mk sevenBytes) 2 = some h1 :=
  ⟨by decide, by decide, C18_stringhash_nonneg.2.1 4 (StringHash.mk sevenBytes) (by decide),
    ⟨by decide, rfl, rfl⟩,
    (C18_stringhash_nonneg.2.2 Nat 4
      (ChHash.mk 4 [[], [⟨StringHash.mk [97], (1 : Nat)⟩], [], []] 0)
      (StringHash.mk sevenBytes) 2 ⟨by decide, rfl, rfl⟩).2.2.1,
    (C18_stringhash_nonneg.2.2 Nat 4
      (ChHash.mk 4 [[], [⟨StringHash.mk [97], (1 : Nat)⟩], [], []] 0)
      (StringHash.mk sevenBytes) 2 ⟨by decide, rfl, rfl⟩).2.2.2⟩

theorem hashRoundInt_eq (val : Nat) (c : Fin 256) :
    hashRoundInt 64 val c = hashRound 64 val c := by
  have hle : ((val <<< 4 + c.val) % 2 ^ 64) &&& 0xf0000000 ≤ 0xf0000000 := Nat.and_le_right
  have hlt : ((val <<< 4 + c.val) % 2 ^ 64) &&& 0xf0000000 < 2 ^ (64 - 1) :=
    lt_of_le_of_lt hle (by norm_num)
  simp only [hashRoundInt, hashRound, shrSigned, if_pos hlt]

theorem hashBitsInt_eq (s : List (Fin 256)) : hashBitsInt 64 s = hashBits 64 s := by
  have : hashRoundInt 64 = hashRound 64 := by
    funext val c
    exact hashRoundInt_eq val c
  simp only [hashBitsInt, hashBits, this]

/-- C19: the hash code depends on the width of `int`: on the seven bytes
F0 F0 F0 F0 F0 FF 10 the algorithm gives 2^32 with the 64-bit `int` and 0 with a 32-bit
`int` (with the shift of the bit pattern and with the signed shift alike); so the 64-bit
hash code is not always below 2^28, while that of the classic 32-bit algorithm always
is. -/
theorem C19_width_dependent :
    StringHash.hash (StringHash.mk sevenBytes) = 2 ^ 32 ∧
    toSigned 64 (hashBits 64 sevenBytes) = 2 ^ 32 ∧
    toSigned 32 (hashBits 32 sevenBytes) = 0 ∧
    toSigned 32 (hashBitsInt 32 sevenBytes) = 0 ∧
    (∀ s : List (Fin 256), hashBitsInt 64 s = hashBits 64 s) ∧
    toSigned 64 (hashBits 64 sevenBytes) ≠ toSigned 32 (hashBits 32 sevenBytes) ∧
    ¬ (StringHash.hash (StringHash.mk sevenBytes) < 2 ^ 28) ∧
    (∀ s : List (Fin 256), 0 ≤ toSigned 32 (hashBits 32 s) ∧
      toSigned 32 (hashBits 32 s) < 2 ^ 28) := by
  refine ⟨by decide, by decide, by decide, by decide, hashBitsInt_eq, by decide, by decide, ?_⟩
  intro s
  have h := hashBits32_lt s
  have h2 : hashBits 32 s < 2 ^ (32 - 1) := lt_of_lt_of_le h (by norm_num)
  unfold toSigned
  rw [if_pos h2]
  exact ⟨Int.ofNat_nonneg _, by exact_mod_cast h⟩

end chhash
